import Mathlib

/-!
Verification development for the `better-fileexplorer` server
(`src/server.js`): a live filesystem index over a SQLite store with
tags, git metadata, a chokidar watcher and fuzzy search.

The embedding works over canonical root-relative paths (the output of
`normalizeRelative`): the absolute path of every node under the
monitored root corresponds one-to-one to its canonical relative path,
so scan and watcher logic is modelled directly on relative paths.
Filesystem names are modelled with the properties real `readdir`
results have (non-empty, no `/`, not `.` or `..`, siblings distinct).

SQL semantics modelled explicitly:
- `entries` is keyed by `path` (PRIMARY KEY); the upsert replaces the
  row in place (`ON CONFLICT(path) DO UPDATE`).
- `=` on TEXT is binary (case-sensitive) string equality.
- `LIKE` is ASCII-case-insensitive with `%` and `_` wildcards.
-/

namespace FileExplorer

/-- ASCII lower-casing, as used by SQLite `LIKE` and by the
`toLowerCase()` calls on extensions (extensions are ASCII). -/
def lowChar (c : Char) : Char :=
  if 'A' ≤ c ∧ c ≤ 'Z' then Char.ofNat (c.toNat + 32) else c

/-- `s.startsWith pre` of JS, on explicit character lists. -/
def strStarts (s pre : String) : Bool :=
  pre.data.isPrefixOf s.data

/-- Characters strictly before the last `'/'` (helper for
`relativePath.slice(0, relativePath.lastIndexOf('/'))`). -/
def beforeLastSlash : List Char → List Char
  | [] => []
  | c :: cs => if '/' ∈ cs then c :: beforeLastSlash cs else []

/-- Characters strictly after the last `'/'` (i.e. `path.basename`). -/
def afterLastSlash : List Char → List Char
  | [] => []
  | c :: cs => if c = '/' ∨ '/' ∈ cs then afterLastSlash cs else c :: cs

/-- Suffix starting at the last `'.'`, or `[]` when there is none. -/
def fromLastDot : List Char → List Char
  | [] => []
  | c :: cs => if '.' ∈ cs then fromLastDot cs else if c = '.' then c :: cs else []

/-- `path.extname`: the extension of the basename, where a dot in
first position (a hidden file) does not start an extension. -/
def extnameOf (p : String) : String :=
  match afterLastSlash p.data with
  | [] => ""
  | _ :: tail => ⟨fromLastDot tail⟩

/-- `parentOf` from the source: `null` for the root, `'/'` when the
last `'/'` is at index `≤ 0`, otherwise the prefix before it. -/
def parentOf (p : String) : Option String :=
  if p = "/" ∨ p = "" then none
  else if '/' ∈ p.data then
    (if beforeLastSlash p.data = [] then some "/" else some ⟨beforeLastSlash p.data⟩)
  else some "/"

/-- `depthOf` from the source: 0 for the root, otherwise
`relativePath.split('/').length`. -/
def depthOf (p : String) : Nat :=
  if p = "/" ∨ p = "" then 0
  else (p.data.filter (· = '/')).length + 1

/-- One row of the `entries` table. -/
structure Entry where
  path : String
  name : String
  parent_path : Option String
  type : String
  size : Option Nat
  mtime : Nat
  extension : String
  depth : Nat
deriving Repr, DecidableEq

/-- One row of the `tags` table (the `(entry_path, key, value)` part;
the surrogate `id` plays no role in any claim). -/
structure Tag where
  entry_path : String
  key : String
  value : String
deriving Repr, DecidableEq

/-- The store state the claims are about: the `entries` rows, the
`tags` rows and the process-lifetime `unsupportedPaths` ignore set
(kept at the canonical-relative-path level, see the header note). -/
structure SysState where
  entries : List Entry
  tags : List Tag
  ignored : List String
deriving Repr, DecidableEq

def emptyState : SysState := ⟨[], [], []⟩

/-- Lookup of the unique row keyed by `path`. -/
def lookupEntry (rows : List Entry) (p : String) : Option Entry :=
  match rows with
  | [] => none
  | e :: rest => if e.path = p then some e else lookupEntry rest p

/-- `statements.upsertEntry`: `INSERT ... ON CONFLICT(path) DO UPDATE`
— replace the row with this key in place, or append a new row. -/
def upsertEntry (rows : List Entry) (e : Entry) : List Entry :=
  match rows with
  | [] => [e]
  | r :: rest => if r.path = e.path then e :: rest else r :: upsertEntry rest e

/-- `markPathUnsupported`: add to the ignore set (a JS `Set`). -/
def markIgnored (ig : List String) (p : String) : List String :=
  if p ∈ ig then ig else p :: ig

/-- `shouldIgnorePath` at the canonical-relative level: member of the
ignore set, or (for in-tree paths) extension `.sock`. -/
def shouldIgnorePath (ig : List String) (rel : String) : Bool :=
  rel ∈ ig ||
    (if strStarts rel ".." then false
     else (extnameOf rel).data.map lowChar = ".sock".data)

/-- The stat facts `entryFromStats` consumes. -/
structure Stats where
  isDir : Bool
  size : Nat
  mtimeMs : Nat
deriving Repr, DecidableEq

/-- `entryFromStats`; `rootName` is `path.basename(START_PATH)` and
`now` is the `Date.now()` fallback used when `mtimeMs` is falsy. -/
def entryFromStats (rootName : String) (now : Nat) (rel : String) (stats : Stats) : Entry :=
  let name := if rel = "/" then rootName else ⟨afterLastSlash rel.data⟩
  let type := if stats.isDir then "directory" else "file"
  let ext :=
    if stats.isDir then ""
    else
      match (extnameOf rel).data with
      | [] => ""
      | '.' :: t => ⟨t.map lowChar⟩
      | l => ⟨l.map lowChar⟩
  { path := rel
    name := name
    parent_path := parentOf rel
    type := type
    size := if stats.isDir then none else some stats.size
    mtime := if stats.mtimeMs ≠ 0 then stats.mtimeMs else now
    extension := ext
    depth := depthOf rel }

/-! ## Filesystem model and the initial recursive scan

A tree of stat/readdir outcomes.  `statErr code` is a node whose
`fsp.stat` fails with `code`; `dirErr` is a directory whose `readdir`
fails.  Children carry their `readdir` names. -/

mutual
inductive FS where
  | file (sz mt : Nat) : FS
  | statErr (code : String) : FS
  | dirErr (mt : Nat) : FS
  | dir (mt : Nat) (children : FSList) : FS
deriving Repr, DecidableEq
inductive FSList where
  | nil : FSList
  | cons (name : String) (node : FS) (rest : FSList) : FSList
deriving Repr, DecidableEq
end

def UNSUPPORTED_FS_CODES : List String :=
  ["ENOTSUP", "EOPNOTSUPP", "EPERM", "EACCES", "ENAMETOOLONG"]

/-- `path.join` of a directory's canonical path and a child name,
post-`normalizeRelative` (the root is `/`). -/
def joinRel (rel name : String) : String :=
  if rel = "/" then name else rel ++ "/" ++ name

/-- The stats carried by an `FS` node that stats successfully. -/
def fsStats : FS → Option Stats
  | .file sz mt => some ⟨false, sz, mt⟩
  | .statErr _ => none
  | .dirErr mt => some ⟨true, 0, mt⟩
  | .dir mt _ => some ⟨true, 0, mt⟩

mutual
/-- The `walk` closure of `scanInitialTree`: ignore check, stat
(marking the path on permission/unsupported errors), `seen` check,
upsert, recursion into children.  The git-metadata calls between the
upsert and the recursion touch only the `git_metadata` table, never
`entries`, `tags` or the ignore set, and are omitted here. -/
def walk (rootName : String) (now : Nat) (fsn : FS) (rel : String)
    (seen : List String) (st : SysState) : List String × SysState :=
  if shouldIgnorePath st.ignored rel then (seen, st)
  else
    match fsn with
    | .statErr code =>
        if code ∈ UNSUPPORTED_FS_CODES then
          (seen, { st with ignored := markIgnored st.ignored rel })
        else (seen, st)
    | .file sz mt =>
        if rel ∈ seen then (seen, st)
        else (rel :: seen,
          { st with entries := upsertEntry st.entries (entryFromStats rootName now rel ⟨false, sz, mt⟩) })
    | .dirErr mt =>
        if rel ∈ seen then (seen, st)
        else (rel :: seen,
          { st with entries := upsertEntry st.entries (entryFromStats rootName now rel ⟨true, 0, mt⟩) })
    | .dir mt children =>
        if rel ∈ seen then (seen, st)
        else
          walkChildren rootName now children rel (rel :: seen)
            { st with entries := upsertEntry st.entries (entryFromStats rootName now rel ⟨true, 0, mt⟩) }
def walkChildren (rootName : String) (now : Nat) (cs : FSList) (rel : String)
    (seen : List String) (st : SysState) : List String × SysState :=
  match cs with
  | .nil => (seen, st)
  | .cons n c rest =>
      let r := walk rootName now c (joinRel rel n) seen st
      walkChildren rootName now rest rel r.1 r.2
end

/-- `scanInitialTree`: a fresh `seen` set, then `walk(START_PATH)`
(canonical path `/`). -/
def scanInitialTree (rootName : String) (now : Nat) (fs : FS) (st : SysState) : SysState :=
  (walk rootName now fs "/" [] st).2

/-! Well-formedness of the modelled tree: names are real `readdir`
results (non-empty, no `/`, not `.` or `..`) and siblings are
distinct, as in a real directory listing. -/

def validName (n : String) : Bool :=
  n ≠ "" && '/' ∉ n.data && n ≠ "." && n ≠ ".."

def namesOf : FSList → List String
  | .nil => []
  | .cons n _ rest => n :: namesOf rest

mutual
def wfFS : FS → Bool
  | .file _ _ => true
  | .statErr _ => true
  | .dirErr _ => true
  | .dir _ children => wfFSList children
def wfFSList : FSList → Bool
  | .nil => true
  | .cons n c rest =>
      validName n && n ∉ namesOf rest && wfFS c && wfFSList rest
end

/-! ## Canonical paths as rendered segment lists

`renderPath` renders a list of path segments to a canonical relative
path (`[] ↦ "/"`, `[a,b] ↦ "a/b"`), mirroring what `normalizeRelative`
produces for a node reached from the root through those names. -/

def renderData : List String → List Char
  | [] => ['/']
  | s :: rest => if rest = [] then s.data else s.data ++ '/' :: renderData rest

def renderPath (xs : List String) : String := ⟨renderData xs⟩

/-- A plausible path segment: non-empty, without `/`. -/
def segOk (s : String) : Bool := s ≠ "" && '/' ∉ s.data

theorem validName_segOk {n : String} (h : validName n = true) : segOk n = true := by
  simp only [validName, Bool.and_eq_true, decide_eq_true_eq] at h
  simp only [segOk, Bool.and_eq_true, decide_eq_true_eq]
  exact ⟨h.1.1.1, h.1.1.2⟩

theorem segOk_ne_empty {s : String} (h : segOk s = true) : s.data ≠ [] := by
  simp only [segOk, Bool.and_eq_true, decide_eq_true_eq] at h
  intro hd
  exact h.1 (by cases s; simp_all)

theorem segOk_no_slash {s : String} (h : segOk s = true) : '/' ∉ s.data := by
  simp only [segOk, Bool.and_eq_true, decide_eq_true_eq] at h
  exact h.2

theorem renderData_ne_nil (xs : List String) (h : ∀ s ∈ xs, segOk s = true) :
    renderData xs ≠ [] := by
  cases xs with
  | nil => simp [renderData]
  | cons s rest =>
    simp only [renderData]
    split
    · exact segOk_ne_empty (h s (by simp))
    · intro hc
      exact segOk_ne_empty (h s (by simp)) (List.append_eq_nil.mp hc).1

theorem string_eq_iff_data {a b : String} : a = b ↔ a.data = b.data := by
  constructor
  · intro h; rw [h]
  · intro h; cases a; cases b; exact congrArg String.mk h

theorem renderPath_ne_root (xs : List String) (hxs : xs ≠ [])
    (h : ∀ s ∈ xs, segOk s = true) : renderPath xs ≠ "/" := by
  cases xs with
  | nil => exact absurd rfl hxs
  | cons s rest =>
    intro hc
    rw [string_eq_iff_data] at hc
    simp only [renderPath, renderData] at hc
    have hs := segOk_no_slash (h s (by simp))
    have hne : s.data ≠ [] := segOk_ne_empty (h s (by simp))
    have hpos : 0 < s.data.length := List.length_pos.mpr hne
    split at hc
    · exact hs (by rw [hc]; simp)
    · obtain ⟨c, cs, hsd⟩ : ∃ c cs, s.data = c :: cs := by
        cases hsd : s.data with
        | nil => exact absurd hsd hne
        | cons c cs => exact ⟨c, cs, rfl⟩
      rw [hsd] at hc
      simp at hc

theorem slash_mem_renderData (xs : List String) (h : ∀ s ∈ xs, segOk s = true) :
    '/' ∈ renderData xs ↔ (xs = [] ∨ ∃ a b l, xs = a :: b :: l) := by
  cases xs with
  | nil => simp [renderData]
  | cons s rest =>
    simp only [renderData]
    cases rest with
    | nil =>
      rw [if_pos rfl]
      constructor
      · intro hm; exact absurd hm (segOk_no_slash (h s (by simp)))
      · rintro (h1 | ⟨a, b, l, h1⟩)
        · exact absurd h1 (by simp)
        · exact absurd (congrArg List.length h1) (by simp)
    | cons t l =>
      rw [if_neg (List.cons_ne_nil t l)]
      constructor
      · intro _; exact Or.inr ⟨s, t, l, rfl⟩
      · intro _; simp

theorem renderData_ne_slash (xs : List String) (hxs : xs ≠ [])
    (h : ∀ s ∈ xs, segOk s = true) : renderData xs ≠ ['/'] := by
  intro hc
  exact renderPath_ne_root xs hxs h (string_eq_iff_data.mpr hc)

theorem noslash_split {a c b d : List Char} (ha : '/' ∉ a) (hc : '/' ∉ c)
    (h : a ++ '/' :: b = c ++ '/' :: d) : a = c ∧ b = d := by
  induction a generalizing c with
  | nil =>
    cases c with
    | nil => simpa using h
    | cons y ys =>
      simp only [List.nil_append, List.cons_append, List.cons.injEq] at h
      apply absurd _ hc
      rw [h.1]
      exact List.mem_cons_self _ _
  | cons x xs ih =>
    cases c with
    | nil =>
      simp only [List.nil_append, List.cons_append, List.cons.injEq] at h
      apply absurd _ ha
      rw [h.1]
      exact List.mem_cons_self _ _
    | cons y ys =>
      simp only [List.cons_append, List.cons.injEq] at h
      obtain ⟨h1, h2⟩ := h
      have ha' : '/' ∉ xs := fun hm => ha (List.mem_cons_of_mem _ hm)
      have hc' : '/' ∉ ys := fun hm => hc (List.mem_cons_of_mem _ hm)
      obtain ⟨e1, e2⟩ := ih ha' hc' h2
      exact ⟨by rw [h1, e1], e2⟩

theorem renderData_inj : ∀ xs ys, (∀ s ∈ xs, segOk s = true) →
    (∀ s ∈ ys, segOk s = true) → renderData xs = renderData ys → xs = ys := by
  intro xs
  induction xs with
  | nil =>
    intro ys _ hy h
    cases ys with
    | nil => rfl
    | cons y ys' => exact absurd h.symm (renderData_ne_slash _ (by simp) hy)
  | cons x xs ih =>
    intro ys hx hy h
    cases ys with
    | nil => exact absurd h (renderData_ne_slash _ (by simp) hx)
    | cons y ys' =>
      simp only [renderData] at h
      by_cases hxe : xs = [] <;> by_cases hye : ys' = []
      · subst hxe; subst hye
        rw [if_pos rfl, if_pos rfl] at h
        rw [string_eq_iff_data.mpr h]
      · subst hxe
        rw [if_pos rfl, if_neg hye] at h
        exact absurd (h ▸ List.mem_append_right _ (List.mem_cons_self _ _))
          (segOk_no_slash (hx x (by simp)))
      · subst hye
        rw [if_neg hxe, if_pos rfl] at h
        exact absurd (h ▸ List.mem_append_right _ (List.mem_cons_self _ _))
          (segOk_no_slash (hy y (by simp)))
      · rw [if_neg hxe, if_neg hye] at h
        obtain ⟨e1, e2⟩ := noslash_split (segOk_no_slash (hx x (by simp)))
          (segOk_no_slash (hy y (by simp))) h
        have := ih ys' (fun s hs => hx s (by simp [hs])) (fun s hs => hy s (by simp [hs]))
          e2
        rw [string_eq_iff_data.mpr e1, this]

theorem renderPath_inj {xs ys : List String} (hx : ∀ s ∈ xs, segOk s = true)
    (hy : ∀ s ∈ ys, segOk s = true) (h : renderPath xs = renderPath ys) : xs = ys :=
  renderData_inj xs ys hx hy (string_eq_iff_data.mp h)

theorem joinRel_renderPath (xs : List String) (n : String)
    (hx : ∀ s ∈ xs, segOk s = true) : joinRel (renderPath xs) n = renderPath (xs ++ [n]) := by
  cases xs with
  | nil =>
    show joinRel "/" n = renderPath [n]
    rw [joinRel, if_pos rfl]
    rw [string_eq_iff_data]
    simp [renderPath, renderData]
  | cons s rest =>
    rw [joinRel, if_neg (renderPath_ne_root _ (by simp) hx)]
    rw [string_eq_iff_data]
    rw [String.data_append, String.data_append]
    show renderData (s :: rest) ++ ['/'] ++ n.data = renderData ((s :: rest) ++ [n])
    induction rest generalizing s with
    | nil => simp [renderData]
    | cons t l ihr =>
      have := ihr t (fun u hu => hx u (by simp at hu ⊢; tauto))
      simp only [renderData, List.cons_append, if_neg (List.cons_ne_nil t l),
        if_neg (show (t :: l) ++ [n] ≠ [] by simp),
        if_neg (show l ++ [n] ≠ [] by simp)] at this ⊢
      simp only [List.append_assoc, List.cons_append] at this ⊢
      rw [← this]
      by_cases hl : l = [] <;> simp [hl, renderData]

theorem beforeLastSlash_append {a b : List Char} (hb : '/' ∉ b) :
    beforeLastSlash (a ++ '/' :: b) = a := by
  induction a with
  | nil => simp [beforeLastSlash, hb]
  | cons x xs ih =>
    show beforeLastSlash (x :: (xs ++ '/' :: b)) = x :: xs
    rw [beforeLastSlash, if_pos (by simp)]
    exact congrArg _ ih

theorem parentOf_joinRel (xs : List String) (n : String)
    (hx : ∀ s ∈ xs, segOk s = true) (hn : segOk n = true) :
    parentOf (joinRel (renderPath xs) n) = some (renderPath xs) := by
  rw [joinRel_renderPath xs n hx]
  have hall : ∀ s ∈ xs ++ [n], segOk s = true := by
    intro s hs
    rcases List.mem_append.mp hs with h | h
    · exact hx s h
    · simp at h; rw [h]; exact hn
  cases xs with
  | nil =>
    rw [parentOf]
    rw [if_neg, if_neg]
    · exact congrArg some (by rw [string_eq_iff_data]; rfl)
    · show ¬('/' ∈ (renderPath [n]).data)
      simpa [renderPath, renderData] using segOk_no_slash hn
    · rintro (h | h)
      · exact renderPath_ne_root [n] (by simp) (by simpa using hn) h
      · rw [string_eq_iff_data] at h
        exact segOk_ne_empty hn (by simpa [renderPath, renderData] using h)
  | cons s rest =>
    have hdata : (renderPath (s :: rest ++ [n])).data
        = renderData (s :: rest) ++ '/' :: n.data := by
      have h1 := joinRel_renderPath (s :: rest) n hx
      rw [joinRel, if_neg (renderPath_ne_root _ (by simp) hx)] at h1
      have h2 := string_eq_iff_data.mp h1
      rw [String.data_append, String.data_append] at h2
      have h3 : (renderPath (s :: rest)).data ++ ['/'] ++ n.data
          = (renderPath (s :: rest ++ [n])).data := by
        simpa using h2
      rw [← h3]
      simp [renderPath]
    have hpos : 0 < (renderData (s :: rest)).length :=
      List.length_pos.mpr (renderData_ne_nil (s :: rest) hx)
    rw [parentOf, if_neg, if_pos, hdata, beforeLastSlash_append (segOk_no_slash hn),
      if_neg (renderData_ne_nil (s :: rest) hx)]
    · rfl
    · rw [hdata]; exact List.mem_append_right _ (List.mem_cons_self _ _)
    · rintro (h | h) <;> rw [string_eq_iff_data] at h <;> rw [hdata] at h
      · have := congrArg List.length h
        simp at this
        omega
      · simp at h

/-! ## Canonical paths touched by a walk -/

mutual
def nodeRels : FS → String → List String
  | .file _ _, rel => [rel]
  | .statErr _, rel => [rel]
  | .dirErr _, rel => [rel]
  | .dir _ children, rel => rel :: nodeRelsL children rel
def nodeRelsL : FSList → String → List String
  | .nil, _ => []
  | .cons n c rest, rel => nodeRels c (joinRel rel n) ++ nodeRelsL rest rel
end

theorem lookup_upsertEntry (rows : List Entry) (e : Entry) (r : String) :
    lookupEntry (upsertEntry rows e) r
      = if e.path = r then some e else lookupEntry rows r := by
  induction rows with
  | nil => simp [upsertEntry, lookupEntry]
  | cons a rest ih =>
    rw [upsertEntry]
    by_cases h : a.path = e.path
    · rw [if_pos h, lookupEntry, lookupEntry]
      by_cases h2 : e.path = r
      · rw [if_pos h2, if_pos h2]
      · rw [if_neg h2, if_neg h2, if_neg (fun hh => h2 (h ▸ hh))]
    · rw [if_neg h, lookupEntry, lookupEntry]
      by_cases h2 : a.path = r
      · rw [if_pos h2, if_pos h2, if_neg (fun hh => h (h2.trans hh.symm))]
      · rw [if_neg h2, if_neg h2, ih]

theorem upsertEntry_self (rows : List Entry) (e : Entry)
    (h : lookupEntry rows e.path = some e) : upsertEntry rows e = rows := by
  induction rows with
  | nil => simp [lookupEntry] at h
  | cons a rest ih =>
    rw [lookupEntry] at h
    rw [upsertEntry]
    by_cases h2 : a.path = e.path
    · rw [if_pos h2]
      rw [if_pos h2] at h
      rw [Option.some_inj.mp h]
    · rw [if_neg h2]
      rw [if_neg h2] at h
      rw [ih h]

theorem mem_markIgnored {ig : List String} {p r : String} :
    r ∈ markIgnored ig p ↔ r = p ∨ r ∈ ig := by
  rw [markIgnored]
  split
  · constructor
    · exact Or.inr
    · rintro (h | h)
      · subst h; assumption
      · exact h
  · simp [List.mem_cons]

theorem shouldIgnorePath_congr {ig ig' : List String} {rel : String}
    (h : rel ∈ ig ↔ rel ∈ ig') :
    shouldIgnorePath ig rel = shouldIgnorePath ig' rel := by
  rw [shouldIgnorePath, shouldIgnorePath]
  congr 1
  exact Bool.decide_congr h

/-- What one call of `walk` does to the store, relative to the set of
canonical paths in the walked subtree: tags untouched, ignore set only
grows, entries and ignore membership unchanged off the subtree, the
`seen` set grows only inside the subtree, entry presence never lost. -/
structure WalkSpec (rels seen seenO : List String) (st stO : SysState) : Prop where
  tags_eq : stO.tags = st.tags
  ig_mono : ∀ r ∈ st.ignored, r ∈ stO.ignored
  ent_frame : ∀ r, r ∉ rels → lookupEntry stO.entries r = lookupEntry st.entries r
  ig_frame : ∀ r, r ∉ rels → (r ∈ stO.ignored ↔ r ∈ st.ignored)
  seen_mono : ∀ r ∈ seen, r ∈ seenO
  seen_sub : ∀ r ∈ seenO, r ∈ seen ∨ r ∈ rels
  ent_mono : ∀ r, (lookupEntry st.entries r).isSome → (lookupEntry stO.entries r).isSome

theorem WalkSpec.refl (rels seen : List String) (st : SysState) :
    WalkSpec rels seen seen st st :=
  ⟨rfl, fun _ h => h, fun _ _ => rfl, fun _ _ => Iff.rfl,
   fun _ h => h, fun _ h => Or.inl h, fun _ h => h⟩

theorem WalkSpec.mono {rels R seen seenO : List String} {st stO : SysState}
    (w : WalkSpec rels seen seenO st stO) (hsub : ∀ x ∈ rels, x ∈ R) :
    WalkSpec R seen seenO st stO :=
  ⟨w.tags_eq, w.ig_mono,
   fun r hr => w.ent_frame r (fun hm => hr (hsub r hm)),
   fun r hr => w.ig_frame r (fun hm => hr (hsub r hm)),
   w.seen_mono,
   fun r hm => (w.seen_sub r hm).imp id (hsub r),
   w.ent_mono⟩

theorem WalkSpec.comp {r1 r2 R s0 s1 s2 : List String} {t0 t1 t2 : SysState}
    (w1 : WalkSpec r1 s0 s1 t0 t1) (w2 : WalkSpec r2 s1 s2 t1 t2)
    (h1 : ∀ x ∈ r1, x ∈ R) (h2 : ∀ x ∈ r2, x ∈ R) :
    WalkSpec R s0 s2 t0 t2 := by
  refine ⟨w2.tags_eq.trans w1.tags_eq, fun r h => w2.ig_mono r (w1.ig_mono r h),
    ?_, ?_, fun r h => w2.seen_mono r (w1.seen_mono r h), ?_,
    fun r h => w2.ent_mono r (w1.ent_mono r h)⟩
  · intro r hr
    rw [w2.ent_frame r (fun hm => hr (h2 r hm)), w1.ent_frame r (fun hm => hr (h1 r hm))]
  · intro r hr
    rw [w2.ig_frame r (fun hm => hr (h2 r hm)), w1.ig_frame r (fun hm => hr (h1 r hm))]
  · intro r hm
    rcases w2.seen_sub r hm with h | h
    · rcases w1.seen_sub r h with h' | h'
      · exact Or.inl h'
      · exact Or.inr (h1 r h')
    · exact Or.inr (h2 r h)

theorem WalkSpec.upsert (rel : String) (seen : List String) (st : SysState)
    (e : Entry) (he : e.path = rel) :
    WalkSpec [rel] seen (rel :: seen) st { st with entries := upsertEntry st.entries e } := by
  refine ⟨rfl, fun _ h => h, ?_, fun _ _ => Iff.rfl, fun r h => List.mem_cons_of_mem _ h,
    ?_, ?_⟩
  · intro r hr
    show lookupEntry (upsertEntry st.entries e) r = _
    rw [lookup_upsertEntry, if_neg (fun hh => hr (by simp [← hh, he]))]
  · intro r hm
    rcases List.mem_cons.mp hm with h | h
    · exact Or.inr (by simp [h])
    · exact Or.inl h
  · intro r hm
    show (lookupEntry (upsertEntry st.entries e) r).isSome
    rw [lookup_upsertEntry]
    split
    · rfl
    · exact hm

theorem WalkSpec.mark (rel : String) (seen : List String) (st : SysState) :
    WalkSpec [rel] seen seen st { st with ignored := markIgnored st.ignored rel } := by
  refine ⟨rfl, ?_, fun _ _ => rfl, ?_, fun _ h => h, fun _ h => Or.inl h, fun _ h => h⟩
  · intro r h
    show r ∈ markIgnored st.ignored rel
    exact mem_markIgnored.mpr (Or.inr h)
  · intro r hr
    show r ∈ markIgnored st.ignored rel ↔ _
    rw [mem_markIgnored]
    constructor
    · rintro (h | h)
      · exact absurd (by simp [h]) hr
      · exact h
    · exact Or.inr

mutual
theorem walk_spec (rootName : String) (now : Nat) (fsn : FS) (rel : String)
    (seen : List String) (st : SysState) :
    WalkSpec (nodeRels fsn rel) seen (walk rootName now fsn rel seen st).1
      st (walk rootName now fsn rel seen st).2 := by
  cases fsn with
  | file sz mt =>
    rw [walk]
    split
    · exact WalkSpec.refl _ _ _
    · split
      · exact WalkSpec.refl _ _ _
      · exact WalkSpec.upsert rel seen st _ rfl
  | statErr code =>
    rw [walk]
    split
    · exact WalkSpec.refl _ _ _
    · split
      · exact WalkSpec.mark rel seen st
      · exact WalkSpec.refl _ _ _
  | dirErr mt =>
    rw [walk]
    split
    · exact WalkSpec.refl _ _ _
    · split
      · exact WalkSpec.refl _ _ _
      · exact WalkSpec.upsert rel seen st _ rfl
  | dir mt children =>
    rw [walk]
    split
    · exact (WalkSpec.refl _ _ _).mono (by intro x h; exact h)
    · split
      · exact (WalkSpec.refl _ _ _).mono (by intro x h; exact h)
      · have h1 := WalkSpec.upsert rel seen st
          (entryFromStats rootName now rel ⟨true, 0, mt⟩) rfl
        have h2 := walkChildren_spec rootName now children rel (rel :: seen)
          { st with entries := upsertEntry st.entries (entryFromStats rootName now rel ⟨true, 0, mt⟩) }
        exact h1.comp h2
          (by intro x h; simp at h; simp [nodeRels, h])
          (by intro x h; simp [nodeRels, h])
theorem walkChildren_spec (rootName : String) (now : Nat) (cs : FSList) (rel : String)
    (seen : List String) (st : SysState) :
    WalkSpec (nodeRelsL cs rel) seen (walkChildren rootName now cs rel seen st).1
      st (walkChildren rootName now cs rel seen st).2 := by
  cases cs with
  | nil => exact WalkSpec.refl _ _ _
  | cons n c rest =>
    rw [walkChildren]
    have h1 := walk_spec rootName now c (joinRel rel n) seen st
    have h2 := walkChildren_spec rootName now rest rel
      (walk rootName now c (joinRel rel n) seen st).1
      (walk rootName now c (joinRel rel n) seen st).2
    exact h1.comp h2
      (by intro x h; simp [nodeRelsL, h])
      (by intro x h; simp [nodeRelsL, h])
end

theorem wfFSList_cons {n : String} {c : FS} {rest : FSList}
    (h : wfFSList (.cons n c rest) = true) :
    validName n = true ∧ n ∉ namesOf rest ∧ wfFS c = true ∧ wfFSList rest = true := by
  simp only [wfFSList, Bool.and_eq_true, decide_eq_true_eq] at h
  exact ⟨h.1.1.1, h.1.1.2, h.1.2, h.2⟩

mutual
theorem nodeRels_shape (fsn : FS) (segs : List String) (hwf : wfFS fsn = true)
    (hsegs : ∀ s ∈ segs, segOk s = true) :
    ∀ r ∈ nodeRels fsn (renderPath segs),
      ∃ t, (∀ s ∈ t, validName s = true) ∧ r = renderPath (segs ++ t) := by
  cases fsn with
  | file sz mt =>
    intro r hr
    simp only [nodeRels, List.mem_singleton] at hr
    exact ⟨[], by simp, by simp [hr]⟩
  | statErr code =>
    intro r hr
    simp only [nodeRels, List.mem_singleton] at hr
    exact ⟨[], by simp, by simp [hr]⟩
  | dirErr mt =>
    intro r hr
    simp only [nodeRels, List.mem_singleton] at hr
    exact ⟨[], by simp, by simp [hr]⟩
  | dir mt children =>
    intro r hr
    simp only [nodeRels, List.mem_cons] at hr
    rcases hr with hr | hr
    · exact ⟨[], by simp, by simp [hr]⟩
    · obtain ⟨n, t, _, hn, ht, hrr⟩ := nodeRelsL_shape children segs hwf hsegs r hr
      exact ⟨n :: t, by
        intro s hs
        rcases List.mem_cons.mp hs with h | h
        · rw [h]; exact hn
        · exact ht s h, hrr⟩
theorem nodeRelsL_shape (cs : FSList) (segs : List String) (hwf : wfFSList cs = true)
    (hsegs : ∀ s ∈ segs, segOk s = true) :
    ∀ r ∈ nodeRelsL cs (renderPath segs),
      ∃ n t, n ∈ namesOf cs ∧ validName n = true ∧ (∀ s ∈ t, validName s = true) ∧
        r = renderPath (segs ++ n :: t) := by
  cases cs with
  | nil => intro r hr; simp [nodeRelsL] at hr
  | cons n c rest =>
    obtain ⟨hv, hnm, hwc, hwr⟩ := wfFSList_cons hwf
    intro r hr
    simp only [nodeRelsL, List.mem_append] at hr
    rcases hr with hr | hr
    · rw [joinRel_renderPath segs n hsegs] at hr
      have hsegs' : ∀ s ∈ segs ++ [n], segOk s = true := by
        intro s hs
        rcases List.mem_append.mp hs with h | h
        · exact hsegs s h
        · simp at h; rw [h]; exact validName_segOk hv
      obtain ⟨t, ht, hrr⟩ := nodeRels_shape c (segs ++ [n]) hwc hsegs' r hr
      exact ⟨n, t, by simp [namesOf], hv, ht, by
        rw [hrr]; congr 1; simp⟩
    · obtain ⟨n', t', hmem, hn', ht', hrr⟩ := nodeRelsL_shape rest segs hwr hsegs r hr
      exact ⟨n', t', by simp [namesOf, hmem], hn', ht', hrr⟩
end

theorem self_not_mem_nodeRelsL (cs : FSList) (segs : List String)
    (hwf : wfFSList cs = true) (hsegs : ∀ s ∈ segs, segOk s = true) :
    renderPath segs ∉ nodeRelsL cs (renderPath segs) := by
  intro hmem
  obtain ⟨n, t, _, hn, ht, hrr⟩ := nodeRelsL_shape cs segs hwf hsegs _ hmem
  have hall : ∀ s ∈ segs ++ n :: t, segOk s = true := by
    intro s hs
    rcases List.mem_append.mp hs with h | h
    · exact hsegs s h
    · rcases List.mem_cons.mp h with h | h
      · rw [h]; exact validName_segOk hn
      · exact validName_segOk (ht s h)
  have := renderPath_inj hsegs hall hrr
  have hlen := congrArg List.length this
  simp at hlen

theorem sibling_disjoint (c : FS) (rest : FSList) (segs : List String) (n : String)
    (hwc : wfFS c = true) (hwr : wfFSList rest = true) (hnm : n ∉ namesOf rest)
    (hn : segOk n = true) (hsegs : ∀ s ∈ segs, segOk s = true) :
    ∀ r ∈ nodeRels c (renderPath (segs ++ [n])), r ∉ nodeRelsL rest (renderPath segs) := by
  intro r hr hmem
  have hsegs' : ∀ s ∈ segs ++ [n], segOk s = true := by
    intro s hs
    rcases List.mem_append.mp hs with h | h
    · exact hsegs s h
    · simp at h; rw [h]; exact hn
  obtain ⟨t, ht, hrr⟩ := nodeRels_shape c (segs ++ [n]) hwc hsegs' r hr
  obtain ⟨n', t', hmem', hn', ht', hrr'⟩ := nodeRelsL_shape rest segs hwr hsegs r hmem
  have h1 : ∀ s ∈ (segs ++ [n]) ++ t, segOk s = true := by
    intro s hs
    rcases List.mem_append.mp hs with h | h
    · exact hsegs' s h
    · exact validName_segOk (ht s h)
  have h2 : ∀ s ∈ segs ++ n' :: t', segOk s = true := by
    intro s hs
    rcases List.mem_append.mp hs with h | h
    · exact hsegs s h
    · rcases List.mem_cons.mp h with h | h
      · rw [h]; exact validName_segOk hn'
      · exact validName_segOk (ht' s h)
  have heq := renderPath_inj h1 h2 (hrr ▸ hrr')
  rw [List.append_assoc] at heq
  have : n :: t = n' :: t' := by
    have := List.append_cancel_left heq
    simpa using this
  apply hnm
  rw [show n = n' from (List.cons.injEq _ _ _ _ ▸ this).1]
  exact hmem'

theorem shouldIgnorePath_grow {ig ig' : List String} (h : ∀ r ∈ ig, r ∈ ig')
    {rel : String} (H : shouldIgnorePath ig rel = true) :
    shouldIgnorePath ig' rel = true := by
  rw [shouldIgnorePath] at H ⊢
  rcases Bool.or_eq_true_iff.mp H with h1 | h1
  · exact Bool.or_eq_true_iff.mpr (Or.inl (by
      rw [decide_eq_true_eq] at h1 ⊢
      exact h rel h1))
  · exact Bool.or_eq_true_iff.mpr (Or.inr h1)

theorem not_mem_of_shouldIgnorePath_false {ig : List String} {rel : String}
    (h : shouldIgnorePath ig rel = false) : rel ∉ ig := by
  rw [shouldIgnorePath] at h
  rcases Bool.or_eq_false_iff.mp h with ⟨h1, _⟩
  rw [decide_eq_false_iff_not] at h1
  exact h1

theorem shouldIgnorePath_of_mem {ig : List String} {rel : String} (h : rel ∈ ig) :
    shouldIgnorePath ig rel = true := by
  rw [shouldIgnorePath]
  exact Bool.or_eq_true_iff.mpr (Or.inl (decide_eq_true h))

/-! ## Idempotence of the initial scan (C1)

`Settled U fsn rel` says a further walk of `fsn` at `rel` cannot
change the store `U`: every node is either pruned by the ignore rules
or its upsert re-writes exactly the row already stored. -/

mutual
def Settled (rootName : String) (now : Nat) (U : SysState) : FS → String → Prop
  | .file sz mt, rel =>
      shouldIgnorePath U.ignored rel = true ∨
        lookupEntry U.entries rel = some (entryFromStats rootName now rel ⟨false, sz, mt⟩)
  | .statErr code, rel =>
      code ∈ UNSUPPORTED_FS_CODES → shouldIgnorePath U.ignored rel = true
  | .dirErr mt, rel =>
      shouldIgnorePath U.ignored rel = true ∨
        lookupEntry U.entries rel = some (entryFromStats rootName now rel ⟨true, 0, mt⟩)
  | .dir mt children, rel =>
      shouldIgnorePath U.ignored rel = true ∨
        (lookupEntry U.entries rel = some (entryFromStats rootName now rel ⟨true, 0, mt⟩) ∧
          SettledL rootName now U children rel)
def SettledL (rootName : String) (now : Nat) (U : SysState) : FSList → String → Prop
  | .nil, _ => True
  | .cons n c rest, rel =>
      Settled rootName now U c (joinRel rel n) ∧ SettledL rootName now U rest rel
end

mutual
theorem Settled_preserve (rootName : String) (now : Nat) (fsn : FS) (rel : String)
    {U U' : SysState} (hig : ∀ r ∈ U.ignored, r ∈ U'.ignored)
    (hent : ∀ r ∈ nodeRels fsn rel, lookupEntry U'.entries r = lookupEntry U.entries r)
    (h : Settled rootName now U fsn rel) : Settled rootName now U' fsn rel := by
  cases fsn with
  | file sz mt =>
    rcases h with h | h
    · exact Or.inl (shouldIgnorePath_grow hig h)
    · exact Or.inr (by rw [hent rel (by simp [nodeRels])]; exact h)
  | statErr code =>
    exact fun hc => shouldIgnorePath_grow hig (h hc)
  | dirErr mt =>
    rcases h with h | h
    · exact Or.inl (shouldIgnorePath_grow hig h)
    · exact Or.inr (by rw [hent rel (by simp [nodeRels])]; exact h)
  | dir mt children =>
    rcases h with h | ⟨h1, h2⟩
    · exact Or.inl (shouldIgnorePath_grow hig h)
    · refine Or.inr ⟨by rw [hent rel (by simp [nodeRels])]; exact h1, ?_⟩
      exact SettledL_preserve rootName now children rel hig
        (fun r hr => hent r (by simp [nodeRels, hr])) h2
theorem SettledL_preserve (rootName : String) (now : Nat) (cs : FSList) (rel : String)
    {U U' : SysState} (hig : ∀ r ∈ U.ignored, r ∈ U'.ignored)
    (hent : ∀ r ∈ nodeRelsL cs rel, lookupEntry U'.entries r = lookupEntry U.entries r)
    (h : SettledL rootName now U cs rel) : SettledL rootName now U' cs rel := by
  cases cs with
  | nil => trivial
  | cons n c rest =>
    obtain ⟨h1, h2⟩ := h
    refine ⟨?_, ?_⟩
    · exact Settled_preserve rootName now c (joinRel rel n) hig
        (fun r hr => hent r (by simp [nodeRelsL, List.mem_append, hr])) h1
    · exact SettledL_preserve rootName now rest rel hig
        (fun r hr => hent r (by simp [nodeRelsL, List.mem_append, hr])) h2
end

mutual
theorem walk_settled (rootName : String) (now : Nat) (fsn : FS) (rel : String)
    (U : SysState) (h : Settled rootName now U fsn rel) (seenB : List String) :
    (walk rootName now fsn rel seenB U).2 = U := by
  cases fsn with
  | file sz mt =>
    rw [walk]
    split
    · rfl
    · rcases h with h | h
      · simp_all
      · split
        · rfl
        · show SysState.mk (upsertEntry U.entries _) U.tags U.ignored = U
          rw [upsertEntry_self U.entries _ h]
  | statErr code =>
    rw [walk]
    split
    · rfl
    · split
      · rename_i hig hcode
        exact absurd (h hcode) (by simp_all)
      · rfl
  | dirErr mt =>
    rw [walk]
    split
    · rfl
    · rcases h with h | h
      · simp_all
      · split
        · rfl
        · show SysState.mk (upsertEntry U.entries _) U.tags U.ignored = U
          rw [upsertEntry_self U.entries _ h]
  | dir mt children =>
    rw [walk]
    split
    · rfl
    · rcases h with h | ⟨h1, h2⟩
      · simp_all
      · split
        · rfl
        · rw [upsertEntry_self U.entries _ h1]
          exact walkChildren_settled rootName now children rel U h2 (rel :: seenB)
theorem walkChildren_settled (rootName : String) (now : Nat) (cs : FSList) (rel : String)
    (U : SysState) (h : SettledL rootName now U cs rel) (seenB : List String) :
    (walkChildren rootName now cs rel seenB U).2 = U := by
  cases cs with
  | nil => rfl
  | cons n c rest =>
    obtain ⟨h1, h2⟩ := h
    rw [walkChildren]
    have e1 := walk_settled rootName now c (joinRel rel n) U h1 seenB
    rw [e1]
    exact walkChildren_settled rootName now rest rel U h2 _
end

mutual
theorem walk_establishes (rootName : String) (now : Nat) (fsn : FS) (segs : List String)
    (hwf : wfFS fsn = true) (hsegs : ∀ s ∈ segs, segOk s = true)
    (seen : List String) (st : SysState)
    (hfresh : ∀ r ∈ nodeRels fsn (renderPath segs), r ∉ seen) :
    Settled rootName now (walk rootName now fsn (renderPath segs) seen st).2
      fsn (renderPath segs) := by
  cases fsn with
  | file sz mt =>
    rw [walk]
    split
    · exact Or.inl (by assumption)
    · split
      · exact absurd (by assumption) (hfresh _ (by simp [nodeRels]))
      · refine Or.inr ?_
        show lookupEntry (upsertEntry st.entries _) _ = _
        rw [lookup_upsertEntry,
          if_pos (show (entryFromStats rootName now (renderPath segs)
            ⟨false, sz, mt⟩).path = renderPath segs from rfl)]
  | statErr code =>
    rw [walk]
    split
    · exact fun _ => by assumption
    · split
      · intro _
        apply shouldIgnorePath_of_mem
        show renderPath segs ∈ markIgnored st.ignored (renderPath segs)
        exact mem_markIgnored.mpr (Or.inl rfl)
      · exact fun hc => absurd hc (by assumption)
  | dirErr mt =>
    rw [walk]
    split
    · exact Or.inl (by assumption)
    · split
      · exact absurd (by assumption) (hfresh _ (by simp [nodeRels]))
      · refine Or.inr ?_
        show lookupEntry (upsertEntry st.entries _) _ = _
        rw [lookup_upsertEntry,
          if_pos (show (entryFromStats rootName now (renderPath segs)
            ⟨true, 0, mt⟩).path = renderPath segs from rfl)]
  | dir mt children =>
    rw [wfFS] at hwf
    rw [walk]
    split
    · exact Or.inl (by assumption)
    · split
      · exact absurd (by assumption) (hfresh _ (by simp [nodeRels]))
      · refine Or.inr ⟨?_, ?_⟩
        · have hw := walkChildren_spec rootName now children (renderPath segs)
            (renderPath segs :: seen)
            (SysState.mk
              (upsertEntry st.entries
                (entryFromStats rootName now (renderPath segs) ⟨true, 0, mt⟩))
              st.tags st.ignored)
          rw [hw.ent_frame (renderPath segs) (self_not_mem_nodeRelsL children segs hwf hsegs)]
          show lookupEntry (upsertEntry st.entries _) _ = _
          rw [lookup_upsertEntry,
            if_pos (show (entryFromStats rootName now (renderPath segs)
              ⟨true, 0, mt⟩).path = renderPath segs from rfl)]
        · apply walkChildren_establishes rootName now children segs hwf hsegs
          intro r hr hmem
          rcases List.mem_cons.mp hmem with h | h
          · exact self_not_mem_nodeRelsL children segs hwf hsegs (h ▸ hr)
          · exact hfresh r (by simp [nodeRels, hr]) h
theorem walkChildren_establishes (rootName : String) (now : Nat) (cs : FSList)
    (segs : List String) (hwf : wfFSList cs = true)
    (hsegs : ∀ s ∈ segs, segOk s = true) (seen : List String) (st : SysState)
    (hfresh : ∀ r ∈ nodeRelsL cs (renderPath segs), r ∉ seen) :
    SettledL rootName now (walkChildren rootName now cs (renderPath segs) seen st).2
      cs (renderPath segs) := by
  cases cs with
  | nil => trivial
  | cons n c rest =>
    obtain ⟨hv, hnm, hwc, hwr⟩ := wfFSList_cons hwf
    have hn := validName_segOk hv
    have hsegs' : ∀ s ∈ segs ++ [n], segOk s = true := by
      intro s hs
      rcases List.mem_append.mp hs with h | h
      · exact hsegs s h
      · simp at h; rw [h]; exact hn
    rw [walkChildren]
    have hjr : joinRel (renderPath segs) n = renderPath (segs ++ [n]) :=
      joinRel_renderPath segs n hsegs
    constructor
    · -- the first child stays settled through the walks of its later siblings
      rw [hjr]
      have h1 : Settled rootName now
          (walk rootName now c (renderPath (segs ++ [n])) seen st).2
          c (renderPath (segs ++ [n])) := by
        apply walk_establishes rootName now c (segs ++ [n]) hwc hsegs' seen st
        intro r hr
        apply hfresh r
        rw [← hjr] at hr
        simp [nodeRelsL, List.mem_append, hr]
      have hw2 := walkChildren_spec rootName now rest (renderPath segs)
        (walk rootName now c (joinRel (renderPath segs) n) seen st).1
        (walk rootName now c (joinRel (renderPath segs) n) seen st).2
      rw [hjr] at hw2
      exact Settled_preserve rootName now c (renderPath (segs ++ [n])) hw2.ig_mono
        (fun r hr => hw2.ent_frame r
          (sibling_disjoint c rest segs n hwc hwr hnm hn hsegs r hr)) (by
          rw [← hjr]; rw [hjr]; exact h1)
    · apply walkChildren_establishes rootName now rest segs hwr hsegs
      intro r hr hmem
      have hwsp := walk_spec rootName now c (joinRel (renderPath segs) n) seen st
      rcases hwsp.seen_sub r hmem with h | h
      · exact hfresh r (by simp [nodeRelsL, List.mem_append, hr]) h
      · rw [hjr] at h
        exact sibling_disjoint c rest segs n hwc hwr hnm hn hsegs r h hr
end

/-- C1: running the initial recursive scan (`scanInitialTree`) twice
over an unchanged filesystem tree produces the same entries-store
content as running it once: the second scan re-upserts, keyed by
`path`, exactly the rows the first scan stored and adds or removes
nothing, so the whole store state (entries, tags, ignore set) after
the second scan equals the state after the first. -/
theorem scan_idempotent (rootName : String) (now : Nat) (fs : FS)
    (hwf : wfFS fs = true) :
    scanInitialTree rootName now fs (scanInitialTree rootName now fs emptyState)
      = scanInitialTree rootName now fs emptyState := by
  have hroot : renderPath ([] : List String) = "/" := rfl
  have hset : Settled rootName now (walk rootName now fs "/" [] emptyState).2 fs "/" := by
    have h := walk_establishes rootName now fs [] hwf (by simp) [] emptyState
      (fun r _ => List.not_mem_nil r)
    rw [hroot] at h
    exact h
  exact walk_settled rootName now fs "/" _ hset []

/-- A small concrete tree: a directory with a nested subtree, a
`.sock` file and a permission-denied node. -/
def exampleFS : FS :=
  .dir 5 (.cons "src"
    (.dir 6 (.cons "a.txt" (.file 5 7) (.cons "b" (.dir 8 .nil) .nil)))
    (.cons "x.sock" (.file 1 2)
      (.cons "locked" (.statErr "EACCES") .nil)))

theorem scan_idempotent_witness :
    wfFS exampleFS = true ∧
      scanInitialTree "root" 99 exampleFS (scanInitialTree "root" 99 exampleFS emptyState)
        = scanInitialTree "root" 99 exampleFS emptyState :=
  ⟨by decide, scan_idempotent "root" 99 exampleFS (by decide)⟩

/-! ## Branch deletion (C2)

SQLite `LIKE` (default `case_sensitive_like = OFF`): `%` matches any
sequence, `_` any single character, other characters compare
ASCII-case-insensitively.  `=` on TEXT stays binary. -/

/-- `anySuffix f t` holds when `f` accepts some suffix of `t`
(including `t` itself and `[]`). -/
def anySuffix (f : List Char → Bool) : List Char → Bool
  | [] => f []
  | c :: ts => f (c :: ts) || anySuffix f ts

def likeMatchL : List Char → List Char → Bool
  | [], [] => true
  | [], _ :: _ => false
  | p :: pr, t =>
      if p = '%' then anySuffix (likeMatchL pr) t
      else
        match t with
        | [] => false
        | c :: ts =>
            if p = '_' then likeMatchL pr ts
            else (lowChar p == lowChar c) && likeMatchL pr ts

def likeMatch (pattern text : String) : Bool := likeMatchL pattern.data text.data

/-- `removePath` (the body of the `remove` transaction): delete the
tags of the path, the tags `LIKE path + '/%'`, the entry of the path,
and the entries `LIKE path + '/%'`.  The trailing
`refreshGitMetadataForPath` touches only the `git_metadata` table. -/
def removePath (st : SysState) (relativePath : String) : SysState :=
  let pattern := relativePath ++ "/%"
  { st with
    tags := (st.tags.filter (fun t => !(t.entry_path == relativePath))).filter
      (fun t => !(likeMatch pattern t.entry_path)),
    entries := (st.entries.filter (fun e => !(e.path == relativePath))).filter
      (fun e => !(likeMatch pattern e.path)) }

/-- `deleteEntryBranch`: no-op on the root, otherwise the same
transaction as `removePath`. -/
def deleteEntryBranch (st : SysState) (relativePath : String) : SysState :=
  if relativePath = "/" ∨ relativePath = "" then st
  else removePath st relativePath

theorem anySuffix_of_self {f : List Char → Bool} {t : List Char} (h : f t = true) :
    anySuffix f t = true := by
  cases t with
  | nil => exact h
  | cons c ts => rw [anySuffix, h, Bool.true_or]

theorem likeMatchL_pct (pr t : List Char) :
    likeMatchL ('%' :: pr) t = anySuffix (likeMatchL pr) t := by
  cases t with
  | nil => rw [likeMatchL, if_pos rfl]
  | cons c ts => rw [likeMatchL, if_pos rfl]

theorem likeMatchL_lit_nil {p : Char} (pr : List Char) (h : p ≠ '%') :
    likeMatchL (p :: pr) [] = false := by
  rw [likeMatchL, if_neg h]

theorem likeMatchL_lit_cons {p : Char} (pr : List Char) (c : Char) (ts : List Char)
    (h : p ≠ '%') :
    likeMatchL (p :: pr) (c :: ts)
      = if p = '_' then likeMatchL pr ts
        else (lowChar p == lowChar c) && likeMatchL pr ts := by
  rw [likeMatchL, if_neg h]

theorem like_pct_any : ∀ t : List Char, likeMatchL ['%'] t = true := by
  intro t
  rw [likeMatchL_pct]
  induction t with
  | nil => rfl
  | cons c ts ih =>
    rw [anySuffix, ih, Bool.or_true]

theorem likeMatchL_self : ∀ (xs r : List Char), likeMatchL (xs ++ ['%']) (xs ++ r) = true
  | [], r => like_pct_any r
  | x :: xs, r => by
    rw [List.cons_append, List.cons_append]
    by_cases h : x = '%'
    · subst h
      rw [likeMatchL_pct, anySuffix, anySuffix_of_self (likeMatchL_self xs r), Bool.or_true]
    · rw [likeMatchL_lit_cons _ _ _ h]
      by_cases h2 : x = '_'
      · rw [if_pos h2, likeMatchL_self xs r]
      · rw [if_neg h2, likeMatchL_self xs r]
        simp

/-- Every literal descendant path matches the branch pattern. -/
theorem likeMatch_descendant (p x : String)
    (h : (p ++ "/").data.isPrefixOf x.data = true) :
    likeMatch (p ++ "/%") x = true := by
  obtain ⟨t, ht⟩ := List.isPrefixOf_iff_prefix.mp h
  rw [likeMatch]
  have h1 : (p ++ "/%").data = (p.data ++ ['/']) ++ ['%'] := by
    rw [String.data_append]
    simp [show ("/%" : String).data = ['/', '%'] from rfl]
  have h2 : x.data = (p.data ++ ['/']) ++ t := by
    rw [← ht, String.data_append]
  rw [h1, h2]
  exact likeMatchL_self (p.data ++ ['/']) t

/-- C2: for every store state and every non-root directory path `p`,
the branch deletion (`deleteEntryBranch`, and `removePath` used by
remove-file events) deletes the entry at `p` and every entry whose
path is `p` or has `p + '/'` as a prefix, together with all tag rows
on those paths; afterwards no tag row references a missing entry
(provided none did before). -/
theorem deleteEntryBranch_cascade (st : SysState) (p : String)
    (hroot : p ≠ "/") (hempty : p ≠ "") :
    (∀ e ∈ (deleteEntryBranch st p).entries,
        e.path ≠ p ∧ (p ++ "/").data.isPrefixOf e.path.data = false) ∧
    (∀ t ∈ (deleteEntryBranch st p).tags,
        t.entry_path ≠ p ∧ (p ++ "/").data.isPrefixOf t.entry_path.data = false) ∧
    ((∀ t ∈ st.tags, ∃ e ∈ st.entries, e.path = t.entry_path) →
      ∀ t ∈ (deleteEntryBranch st p).tags,
        ∃ e ∈ (deleteEntryBranch st p).entries, e.path = t.entry_path) ∧
    (∀ e ∈ (removePath st p).entries,
        e.path ≠ p ∧ (p ++ "/").data.isPrefixOf e.path.data = false) ∧
    (∀ t ∈ (removePath st p).tags,
        t.entry_path ≠ p ∧ (p ++ "/").data.isPrefixOf t.entry_path.data = false) ∧
    ((∀ t ∈ st.tags, ∃ e ∈ st.entries, e.path = t.entry_path) →
      ∀ t ∈ (removePath st p).tags,
        ∃ e ∈ (removePath st p).entries, e.path = t.entry_path) := by
  have hdb : deleteEntryBranch st p = removePath st p := by
    rw [deleteEntryBranch, if_neg (by rintro (h | h) <;> [exact hroot h; exact hempty h])]
  have hent : ∀ e ∈ (removePath st p).entries,
      e.path ≠ p ∧ (p ++ "/").data.isPrefixOf e.path.data = false := by
    intro e he
    rw [removePath] at he
    simp only [List.mem_filter, Bool.not_eq_true'] at he
    obtain ⟨⟨_, h1⟩, h2⟩ := he
    refine ⟨by simpa using h1, ?_⟩
    by_contra hc
    rw [Bool.not_eq_false] at hc
    exact absurd (likeMatch_descendant p e.path hc) (by simp [h2])
  have htag : ∀ t ∈ (removePath st p).tags,
      t.entry_path ≠ p ∧ (p ++ "/").data.isPrefixOf t.entry_path.data = false := by
    intro t ht
    rw [removePath] at ht
    simp only [List.mem_filter, Bool.not_eq_true'] at ht
    obtain ⟨⟨_, h1⟩, h2⟩ := ht
    refine ⟨by simpa using h1, ?_⟩
    by_contra hc
    rw [Bool.not_eq_false] at hc
    exact absurd (likeMatch_descendant p t.entry_path hc) (by simp [h2])
  have hinv : (∀ t ∈ st.tags, ∃ e ∈ st.entries, e.path = t.entry_path) →
      ∀ t ∈ (removePath st p).tags,
        ∃ e ∈ (removePath st p).entries, e.path = t.entry_path := by
    intro hpre t ht
    rw [removePath] at ht
    simp only [List.mem_filter, Bool.not_eq_true'] at ht
    obtain ⟨⟨htm, h1⟩, h2⟩ := ht
    obtain ⟨e, hem, hep⟩ := hpre t htm
    refine ⟨e, ?_, hep⟩
    rw [removePath]
    simp only [List.mem_filter, Bool.not_eq_true']
    exact ⟨⟨hem, by rw [hep]; exact h1⟩, by rw [hep]; exact h2⟩
  rw [hdb]
  exact ⟨hent, htag, hinv, hent, htag, hinv⟩

def exampleStoreC2 : SysState :=
  { entries := [
      Entry.mk "/" "root" none "directory" none 1 "" 0,
      Entry.mk "src" "src" (some "/") "directory" none 2 "" 1,
      Entry.mk "src/b" "b" (some "src") "directory" none 3 "" 2,
      Entry.mk "src/b/c.txt" "c.txt" (some "src/b") "file" (some 4) 4 "txt" 3,
      Entry.mk "src/a.txt" "a.txt" (some "src") "file" (some 5) 5 "txt" 2],
    tags := [Tag.mk "src/b/c.txt" "lang" "txt", Tag.mk "src/a.txt" "lang" "txt"],
    ignored := [] }

theorem deleteEntryBranch_cascade_witness :
    ("src/b" ≠ "/" ∧ "src/b" ≠ "") ∧
      ∀ e ∈ (deleteEntryBranch exampleStoreC2 "src/b").entries,
        e.path ≠ "src/b" ∧ ("src/b" ++ "/").data.isPrefixOf e.path.data = false :=
  ⟨⟨by decide, by decide⟩,
   (deleteEntryBranch_cascade exampleStoreC2 "src/b" (by decide) (by decide)).1⟩

/-! ## Tag-filtered search (C4)

`gatherSearchResults` is modelled with the fuzzy index output
(`entryFuse.search(query, { limit: 50 })`) as an oracle parameter
`fuseOut`: the claim is about the tag filtering around it, not about
the fuzzy scoring. -/

structure TagFilter where
  key : String
  value : String
deriving Repr, DecidableEq

/-- `statements.pathsForTag`: `SELECT entry_path FROM tags WHERE key = ? AND value = ?`. -/
def pathsForTag (tags : List Tag) (f : TagFilter) : List String :=
  (tags.filter (fun t => t.key == f.key && t.value == f.value)).map (fun t => t.entry_path)

/-- `filterPathsByTags`: `null` for an empty filter list, otherwise
the reduction of the per-filter path sets by intersection. -/
def filterPathsByTags (tags : List Tag) (filters : List TagFilter) : Option (List String) :=
  match filters with
  | [] => none
  | f :: rest =>
      some (rest.foldl (fun acc g => acc.filter (fun p => p ∈ pathsForTag tags g))
        (pathsForTag tags f))

def dedupGo (seen : List String) : List Entry → List Entry
  | [] => []
  | e :: rest => if e.path ∈ seen then dedupGo seen rest else e :: dedupGo (e.path :: seen) rest

/-- The `seen`-set deduplication of the fuzzy-result loop. -/
def dedupByPath (l : List Entry) : List Entry := dedupGo [] l

/-- `gatherSearchResults` (entry selection; the per-result `git` and
`tags` decoration does not change which entries are returned). -/
def gatherSearchResults (cache : List Entry) (tags : List Tag) (query : String)
    (tagFilters : List TagFilter) (fuseOut : List Entry) : List Entry :=
  let targetPathsSet := filterPathsByTags tags tagFilters
  let candidates :=
    match targetPathsSet with
    | some s => cache.filter (fun (e : Entry) => e.path ∈ s)
    | none => cache
  if query ≠ "" then
    dedupByPath (fuseOut.filter (fun (e : Entry) =>
      match targetPathsSet with
      | some s => e.path ∈ s
      | none => true))
  else candidates.take 50

theorem mem_pathsForTag {tags : List Tag} {f : TagFilter} {p : String} :
    p ∈ pathsForTag tags f
      ↔ ∃ tg ∈ tags, tg.entry_path = p ∧ tg.key = f.key ∧ tg.value = f.value := by
  rw [pathsForTag]
  simp only [List.mem_map, List.mem_filter, Bool.and_eq_true, beq_iff_eq]
  constructor
  · rintro ⟨tg, ⟨hm, hk, hv⟩, hp⟩
    exact ⟨tg, hm, hp, hk, hv⟩
  · rintro ⟨tg, hm, hp, hk, hv⟩
    exact ⟨tg, ⟨hm, hk, hv⟩, hp⟩

theorem mem_foldl_inter (tags : List Tag) :
    ∀ (rest : List TagFilter) (init : List String) (p : String),
      (p ∈ rest.foldl (fun acc g => acc.filter (fun q => q ∈ pathsForTag tags g)) init
        ↔ p ∈ init ∧ ∀ g ∈ rest, p ∈ pathsForTag tags g) := by
  intro rest
  induction rest with
  | nil => simp
  | cons g rest ih =>
    intro init p
    rw [List.foldl_cons, ih]
    simp only [List.mem_filter, decide_eq_true_eq, List.mem_cons]
    constructor
    · rintro ⟨⟨h1, h2⟩, h3⟩
      exact ⟨h1, fun g' hg' => by
        rcases hg' with h | h
        · rw [h]; exact h2
        · exact h3 g' h⟩
    · rintro ⟨h1, h2⟩
      exact ⟨⟨h1, h2 g (Or.inl rfl)⟩, fun g' hg' => h2 g' (Or.inr hg')⟩

theorem dedupGo_subset {l : List Entry} {seen : List String} {e : Entry}
    (h : e ∈ dedupGo seen l) : e ∈ l := by
  induction l generalizing seen with
  | nil => simpa [dedupGo] using h
  | cons a rest ih =>
    rw [dedupGo] at h
    split at h
    · exact List.mem_cons_of_mem _ (ih h)
    · rcases List.mem_cons.mp h with h | h
      · exact h ▸ List.mem_cons_self _ _
      · exact List.mem_cons_of_mem _ (ih h)

/-- C4: the candidate path set of a search is the intersection of the
per-filter path sets; an empty filter list imposes no restriction
(`null` set, candidates are the whole cache); and every returned
entry satisfies every requested `(key, value)` filter with an exact
tag row. -/
theorem gatherSearchResults_filters (cache : List Entry) (tags : List Tag)
    (query : String) (filters : List TagFilter) (fuseOut : List Entry) :
    (filterPathsByTags tags [] = none) ∧
    (gatherSearchResults cache tags "" [] fuseOut = cache.take 50) ∧
    (∀ s, filterPathsByTags tags filters = some s →
      ∀ p, p ∈ s ↔ ∀ f ∈ filters,
        ∃ tg ∈ tags, tg.entry_path = p ∧ tg.key = f.key ∧ tg.value = f.value) ∧
    (∀ e ∈ gatherSearchResults cache tags query filters fuseOut,
      ∀ f ∈ filters,
        ∃ tg ∈ tags, tg.entry_path = e.path ∧ tg.key = f.key ∧ tg.value = f.value) := by
  have hchar : ∀ s, filterPathsByTags tags filters = some s →
      ∀ p, p ∈ s ↔ ∀ f ∈ filters,
        ∃ tg ∈ tags, tg.entry_path = p ∧ tg.key = f.key ∧ tg.value = f.value := by
    intro s hs p
    cases filters with
    | nil => simp [filterPathsByTags] at hs
    | cons f rest =>
      rw [filterPathsByTags, Option.some_inj] at hs
      rw [← hs, mem_foldl_inter, mem_pathsForTag]
      constructor
      · rintro ⟨h1, h2⟩ f' hf'
        rcases List.mem_cons.mp hf' with h | h
        · exact h ▸ h1
        · exact mem_pathsForTag.mp (h2 f' h)
      · intro hall
        exact ⟨hall f (List.mem_cons_self _ _),
          fun g hg => mem_pathsForTag.mpr (hall g (List.mem_cons_of_mem _ hg))⟩
  refine ⟨rfl, by rw [gatherSearchResults]; simp [filterPathsByTags], hchar, ?_⟩
  intro e he f hf
  rw [gatherSearchResults] at he
  cases hfp : filterPathsByTags tags filters with
  | none =>
    cases filters with
    | nil => simp at hf
    | cons g rest => simp [filterPathsByTags] at hfp
  | some s =>
    rw [hfp] at he
    have hmem : e.path ∈ s := by
      split at he
      · have h1 := dedupGo_subset he
        have h2 := (List.mem_filter.mp h1).2
        simpa using h2
      · have h1 := List.mem_of_mem_take he
        exact of_decide_eq_true (List.mem_filter.mp h1).2
    exact (hchar s hfp e.path).mp hmem f hf

theorem gatherSearchResults_filters_witness :
    ∀ e ∈ gatherSearchResults
        [Entry.mk "src/a.txt" "a.txt" (some "src") "file" (some 5) 5 "txt" 2]
        [Tag.mk "src/a.txt" "lang" "txt"] "a" [TagFilter.mk "lang" "txt"]
        [Entry.mk "src/a.txt" "a.txt" (some "src") "file" (some 5) 5 "txt" 2],
      ∀ f ∈ [TagFilter.mk "lang" "txt"],
        ∃ tg ∈ [Tag.mk "src/a.txt" "lang" "txt"],
          tg.entry_path = e.path ∧ tg.key = f.key ∧ tg.value = f.value :=
  (gatherSearchResults_filters
    [Entry.mk "src/a.txt" "a.txt" (some "src") "file" (some 5) 5 "txt" 2]
    [Tag.mk "src/a.txt" "lang" "txt"] "a" [TagFilter.mk "lang" "txt"]
    [Entry.mk "src/a.txt" "a.txt" (some "src") "file" (some 5) 5 "txt" 2]).2.2.2

/-! ## `POST /api/tags` (C9) -/

/-- JS falsiness of a destructured string field: absent or `''`. -/
def falsyStr : Option String → Bool
  | none => true
  | some s => s == ""

/-- The `POST /api/tags` handler: 400 when `path`, `key` or `value`
is falsy, 404 when no entry exists at `path`, otherwise
`INSERT OR IGNORE` of the `(path, key, value)` row (the tags table
has `UNIQUE(entry_path, key, value)`).  `refreshCaches` and
`broadcast` afterwards do not change the store. -/
def addTagHandler (st : SysState) (path key value : Option String) : Nat × SysState :=
  match path, key, value with
  | some p, some k, some v =>
      if p = "" ∨ k = "" ∨ v = "" then (400, st)
      else
        match lookupEntry st.entries p with
        | none => (404, st)
        | some _ =>
            (200, { st with tags :=
              if (Tag.mk p k v ∈ st.tags) then st.tags else st.tags ++ [Tag.mk p k v] })
  | _, _, _ => (400, st)

/-- C9: a missing (or empty) `path`/`key`/`value` is rejected with
400 and the store unchanged; an unknown entry path is rejected with
404 and the store unchanged; otherwise the tag is inserted, and a
duplicate add of an already-present triple leaves the tag table
unchanged. -/
theorem addTagHandler_spec (st : SysState) (path key value : Option String) :
    ((path = none ∨ path = some "" ∨ key = none ∨ key = some "" ∨
        value = none ∨ value = some "") →
      addTagHandler st path key value = (400, st)) ∧
    (∀ p k v, path = some p → key = some k → value = some v →
      p ≠ "" → k ≠ "" → v ≠ "" →
      (lookupEntry st.entries p = none →
        addTagHandler st path key value = (404, st)) ∧
      (∀ e, lookupEntry st.entries p = some e →
        (Tag.mk p k v ∈ st.tags →
          addTagHandler st path key value = (200, st)) ∧
        (Tag.mk p k v ∉ st.tags →
          addTagHandler st path key value
            = (200, { st with tags := st.tags ++ [Tag.mk p k v] })) ∧
        Tag.mk p k v ∈ (addTagHandler st path key value).2.tags)) := by
  constructor
  · intro h
    cases path with
    | none => cases key <;> cases value <;> simp [addTagHandler]
    | some p' =>
      cases key with
      | none => cases value <;> simp [addTagHandler]
      | some k' =>
        cases value with
        | none => simp [addTagHandler]
        | some v' =>
          have hcond : p' = "" ∨ k' = "" ∨ v' = "" := by
            rcases h with h | h | h | h | h | h <;> simp_all
          rw [addTagHandler, if_pos hcond]
  · intro p k v hp hk hv hp' hk' hv'
    subst hp; subst hk; subst hv
    rw [addTagHandler]
    rw [if_neg (by rintro (h | h | h) <;> [exact hp' h; exact hk' h; exact hv' h])]
    constructor
    · intro hnone
      rw [hnone]
    · intro e he
      rw [he]
      refine ⟨fun hmem => by rw [if_pos hmem], fun hmem => by rw [if_neg hmem], ?_⟩
      show Tag.mk p k v ∈
        (if (Tag.mk p k v ∈ st.tags) then st.tags else st.tags ++ [Tag.mk p k v])
      split
      · assumption
      · exact List.mem_append_right _ (List.mem_cons_self _ _)

theorem addTagHandler_spec_witness :
    addTagHandler exampleStoreC2 (some "src/a.txt") (some "owner") (some "me")
        = (200, { exampleStoreC2 with
            tags := exampleStoreC2.tags ++ [Tag.mk "src/a.txt" "owner" "me"] }) ∧
    addTagHandler exampleStoreC2 (some "src/a.txt") (some "lang") (some "txt")
        = (200, exampleStoreC2) ∧
    addTagHandler exampleStoreC2 (some "missing") (some "k") (some "v")
        = (404, exampleStoreC2) ∧
    addTagHandler exampleStoreC2 none (some "k") (some "v") = (400, exampleStoreC2) := by
  have h := addTagHandler_spec exampleStoreC2 (some "src/a.txt") (some "owner") (some "me")
  have h2 := addTagHandler_spec exampleStoreC2 (some "src/a.txt") (some "lang") (some "txt")
  have h3 := addTagHandler_spec exampleStoreC2 (some "missing") (some "k") (some "v")
  have h4 := addTagHandler_spec exampleStoreC2 none (some "k") (some "v")
  refine ⟨?_, ?_, ?_, ?_⟩
  · exact (((h.2 "src/a.txt" "owner" "me" rfl rfl rfl (by decide) (by decide) (by decide)).2
      (Entry.mk "src/a.txt" "a.txt" (some "src") "file" (some 5) 5 "txt" 2)
      (by decide)).2.1 (by decide))
  · exact (((h2.2 "src/a.txt" "lang" "txt" rfl rfl rfl (by decide) (by decide) (by decide)).2
      (Entry.mk "src/a.txt" "a.txt" (some "src") "file" (some 5) 5 "txt" 2)
      (by decide)).1 (by decide))
  · exact ((h3.2 "missing" "k" "v" rfl rfl rfl (by decide) (by decide) (by decide)).1
      (by decide))
  · exact h4.1 (Or.inl rfl)

/-! ## `GET /api/tags/search` result bound (C10) -/

def isJsSpace (c : Char) : Bool :=
  c = ' ' ∨ c = '\t' ∨ c = '\n' ∨ c = '\r' ∨ c = '\x0b' ∨ c = '\x0c'

def jsTrim (s : String) : String :=
  ⟨((s.data.dropWhile isJsSpace).reverse.dropWhile isJsSpace).reverse⟩

def digitsToNat (ds : List Char) : Nat :=
  ds.foldl (fun a c => a * 10 + (c.toNat - '0'.toNat)) 0

/-- `Number.parseInt(s, 10)`: optional whitespace, optional sign,
then leading decimal digits; `NaN` (here `none`) when there are no
digits. -/
def parseIntJS10 (s : String) : Option Int :=
  let cs := s.data.dropWhile isJsSpace
  let signed : Bool × List Char :=
    match cs with
    | '-' :: r => (true, r)
    | '+' :: r => (false, r)
    | r => (false, r)
  let digits := signed.2.takeWhile (fun c => c.isDigit)
  if digits.isEmpty then none
  else some ((if signed.1 then -1 else 1) * (digitsToNat digits : Int))

/-- The limit clamp of `GET /api/tags/search`:
`Number.isFinite(rawLimit) ? Math.min(Math.max(rawLimit, 1), 100) : 20`,
where `rawLimit` is `NaN` unless the query parameter is a string. -/
def tagsSearchLimit (limitParam : Option String) : Int :=
  match limitParam with
  | none => 20
  | some s =>
      match parseIntJS10 s with
      | none => 20
      | some n => min (max n 1) 100

/-- The `GET /api/tags/search` handler: 400 on an empty (trimmed)
query, otherwise at most `limit` fuzzy matches
(`tagFuse.search(query, { limit })` returns at most `limit` items,
modelled as truncation of the oracle match list). -/
def tagsSearchHandler (q : Option String) (limitParam : Option String)
    (fuseMatches : List Tag) : Except Nat (List Tag) :=
  if (match q with | some s => jsTrim s | none => "") = "" then .error 400
  else .ok (fuseMatches.take (tagsSearchLimit limitParam).toNat)

/-- C10: a successful tag search returns at most
`min (max limit 1) 100` results when the `limit` parameter parses to
an integer, at most 20 when it is absent or unparsable, and at most
one result when the requested limit is zero or negative. -/
theorem tagsSearchLimit_parsed {s : String} {n : Int} (hn : parseIntJS10 s = some n) :
    tagsSearchLimit (some s) = min (max n 1) 100 := by
  rw [tagsSearchLimit, hn]

theorem tagsSearchLimit_unparsed {s : String} (hn : parseIntJS10 s = none) :
    tagsSearchLimit (some s) = 20 := by
  rw [tagsSearchLimit, hn]

theorem tagsSearchHandler_bound (q limitParam : Option String)
    (fuseMatches : List Tag) (res : List Tag)
    (hok : tagsSearchHandler q limitParam fuseMatches = .ok res) :
    (∀ s n, limitParam = some s → parseIntJS10 s = some n →
      (res.length : Int) ≤ min (max n 1) 100) ∧
    ((limitParam = none ∨ ∃ s, limitParam = some s ∧ parseIntJS10 s = none) →
      res.length ≤ 20) ∧
    (∀ s n, limitParam = some s → parseIntJS10 s = some n → n ≤ 0 →
      res.length ≤ 1) := by
  rw [tagsSearchHandler.eq_def] at hok
  split at hok
  · exact absurd hok (by simp)
  · have hres : res = fuseMatches.take (tagsSearchLimit limitParam).toNat := by
      cases hok; rfl
    have hlen : res.length ≤ (tagsSearchLimit limitParam).toNat := by
      rw [hres]; exact List.length_take_le _ _
    refine ⟨?_, ?_, ?_⟩
    · intro s n hs hn
      rw [hs, tagsSearchLimit_parsed hn] at hlen
      have h1 : (1 : Int) ≤ min (max n 1) 100 := by
        rcases le_or_lt n 1 with h | h
        · simp [max_eq_right h]
        · rw [max_eq_left h.le]; exact le_min h.le (by omega)
      omega
    · rintro (h | ⟨s, hs, hn⟩)
      · rw [h] at hlen; exact hlen
      · rw [hs, tagsSearchLimit_unparsed hn] at hlen
        exact hlen
    · intro s n hs hn hneg
      rw [hs, tagsSearchLimit_parsed hn] at hlen
      have hm : max n 1 = 1 := max_eq_right (by omega)
      rw [hm] at hlen
      have hmin : min (1 : Int) 100 = 1 := by decide
      rw [hmin] at hlen
      exact hlen

theorem tagsSearchHandler_bound_witness :
    ([Tag.mk "p" "k" "v"] : List Tag).length ≤ 1 ∧
      tagsSearchHandler (some "a") (some "-5")
          [Tag.mk "p" "k" "v", Tag.mk "q" "k" "v"] = .ok [Tag.mk "p" "k" "v"] :=
  ⟨(tagsSearchHandler_bound (some "a") (some "-5")
      [Tag.mk "p" "k" "v", Tag.mk "q" "k" "v"] [Tag.mk "p" "k" "v"] rfl).2.2
      "-5" (-5) rfl (by decide) (by decide),
   rfl⟩

/-! ## Watcher mode state machine (C5)

`switchWatcherMode`'s asynchronous body assigns `watcherMode` only
when it runs (after the first `await`), and `watcherSwitchPromise` is
non-null exactly while a body is in flight, so error events arriving
mid-switch observe the old mode and the pending promise.  Events are
the `handleWatcherError` inputs plus the completion of the in-flight
switch body. -/

inductive WatcherMode where
  | native
  | polling
deriving Repr, DecidableEq

inductive WatcherEvent where
  | errLimit
  | errUnsupported
  | errOther
  | finishSwitch
deriving Repr, DecidableEq

structure WatcherState where
  mode : WatcherMode
  pending : Option WatcherMode
  started : Nat
deriving Repr, DecidableEq

def watcherInit : WatcherState := ⟨.native, none, 0⟩

/-- `switchWatcherMode(mode)`: return at once when already in that
mode (with a live watcher), return the in-flight promise when one
exists, otherwise start a new switch body.  `started` counts the
bodies ever started. -/
def switchWatcherMode (s : WatcherState) (m : WatcherMode) : WatcherState :=
  if m = s.mode then s
  else if s.pending.isSome then s
  else { mode := s.mode, pending := some m, started := s.started + 1 }

/-- `handleWatcherError`: unsupported-filesystem errors mark/unwatch
the path (no mode change); `isWatcherLimitError` errors request
`polling` unless already polling; other errors are logged;
`finishSwitch` is the switch body completing
(`watcherMode = mode; watcherSwitchPromise = null`). -/
def handleWatcherError (s : WatcherState) (e : WatcherEvent) : WatcherState :=
  match e with
  | .errUnsupported => s
  | .errOther => s
  | .errLimit => if s.mode ≠ .polling then switchWatcherMode s .polling else s
  | .finishSwitch =>
      match s.pending with
      | some m => { mode := m, pending := none, started := s.started }
      | none => s

def watcherRun (evs : List WatcherEvent) : WatcherState :=
  evs.foldl handleWatcherError watcherInit

def WatcherInv (s : WatcherState) : Prop :=
  s = ⟨.native, none, 0⟩ ∨ s = ⟨.native, some .polling, 1⟩ ∨ s = ⟨.polling, none, 1⟩

instance (s : WatcherState) : Decidable (WatcherInv s) := by
  unfold WatcherInv
  infer_instance

theorem watcher_step_inv {s : WatcherState} (h : WatcherInv s) (e : WatcherEvent) :
    WatcherInv (handleWatcherError s e) := by
  rcases h with h | h | h <;> subst h <;> cases e <;> decide

theorem watcher_foldl_inv {s : WatcherState} (h : WatcherInv s) (evs : List WatcherEvent) :
    WatcherInv (evs.foldl handleWatcherError s) := by
  induction evs generalizing s with
  | nil => exact h
  | cons e evs ih => exact ih (watcher_step_inv h e)

theorem watcherRun_inv (evs : List WatcherEvent) : WatcherInv (watcherRun evs) :=
  watcher_foldl_inv (Or.inl rfl) evs

theorem watcher_started_stable {s : WatcherState} (h : WatcherInv s)
    (h1 : s.started = 1) (evs : List WatcherEvent) :
    (evs.foldl handleWatcherError s).started = 1 := by
  induction evs generalizing s with
  | nil => exact h1
  | cons e evs ih =>
    refine ih (watcher_step_inv h e) ?_
    rcases h with h | h | h <;> subst h <;> cases e <;> first | rfl | simp_all

/-- C5: over every event sequence from the initial native state, at
most one switch body ever starts and errors never move the mode except
native → polling: an in-flight switch absorbs further limit errors
(the second request awaits it instead of starting another body), the
polling state is absorbing (no transition back), non-limit errors
never change the watcher state, and once a limit error has been
received the number of started switches is exactly one. -/
theorem watcher_mode_machine (evs : List WatcherEvent) :
    ((watcherRun evs).started ≤ 1) ∧
    (∀ e, (handleWatcherError (watcherRun evs) e).mode ≠ (watcherRun evs).mode →
      (watcherRun evs).mode = .native ∧
        (handleWatcherError (watcherRun evs) e).mode = .polling ∧ e = .finishSwitch) ∧
    ((watcherRun evs).mode = .polling →
      ∀ more, (watcherRun (evs ++ more)).mode = .polling) ∧
    ((watcherRun evs).pending.isSome →
      handleWatcherError (watcherRun evs) .errLimit = watcherRun evs) ∧
    (handleWatcherError (watcherRun evs) .errOther = watcherRun evs ∧
      handleWatcherError (watcherRun evs) .errUnsupported = watcherRun evs) ∧
    (.errLimit ∈ evs → (watcherRun evs).started = 1) := by
  have hinv := watcherRun_inv evs
  refine ⟨?_, ?_, ?_, ?_, ?_, ?_⟩
  · rcases hinv with h | h | h <;> rw [h] <;> decide
  · intro e
    rcases hinv with h | h | h <;> rw [h] <;> cases e <;> decide
  · intro hpoll more
    have hstate : watcherRun evs = ⟨.polling, none, 1⟩ := by
      rcases hinv with h | h | h <;> rw [h] at hpoll ⊢ <;> first | rfl | simp_all
    rw [watcherRun, List.foldl_append]
    rw [show evs.foldl handleWatcherError watcherInit = watcherRun evs from rfl, hstate]
    have habs : ∀ more', List.foldl handleWatcherError ⟨.polling, none, 1⟩ more'
        = (⟨.polling, none, 1⟩ : WatcherState) := by
      intro more'
      induction more' with
      | nil => rfl
      | cons e rest ih =>
        rw [List.foldl_cons, show handleWatcherError ⟨.polling, none, 1⟩ e
          = (⟨.polling, none, 1⟩ : WatcherState) by cases e <;> decide, ih]
    rw [habs]
  · intro hpend
    rcases hinv with h | h | h <;> rw [h] <;> rw [h] at hpend <;> first | rfl | simp_all
  · constructor <;> rfl
  · intro hmem
    have : ∀ (rest : List WatcherEvent) (s : WatcherState), WatcherInv s →
        .errLimit ∈ rest → (rest.foldl handleWatcherError s).started = 1 := by
      intro rest
      induction rest with
      | nil => intro s _ hm; simp at hm
      | cons e rest ih =>
        intro s hs hm
        rcases List.mem_cons.mp hm with he | he
        · subst he
          apply watcher_started_stable (watcher_step_inv hs _) _ rest
          rcases hs with h | h | h <;> subst h <;> decide
        · exact ih (handleWatcherError s e) (watcher_step_inv hs e) he
    exact this evs watcherInit (Or.inl rfl) hmem

theorem watcher_mode_machine_witness :
    (watcherRun [.errLimit]).started = 1 ∧
    (watcherRun ([.errLimit] ++ [.finishSwitch])).mode = .polling ∧
    handleWatcherError (watcherRun [.errLimit]) .errLimit = watcherRun [.errLimit] ∧
    handleWatcherError (watcherRun [.errLimit]) .errOther = watcherRun [.errLimit] := by
  have h := watcher_mode_machine [.errLimit]
  have h2 := watcher_mode_machine [.errLimit, .finishSwitch]
  refine ⟨h.2.2.2.2.2 (by decide), ?_, h.2.2.2.1 (by decide), h.2.2.2.2.1.1⟩
  have : (watcherRun ([.errLimit] ++ [.finishSwitch])).mode = .polling := by decide
  exact this

/-! ## Watcher event reconciliation (C3, C7) -/

inductive StatRes where
  | ok (stats : Stats)
  | err (code : String)
deriving Repr, DecidableEq

/-- `substrIndex hay needle`: index of the first occurrence of
`needle` in `hay` (JS `String.indexOf`), `none` when absent. -/
def substrIndex (hay needle : List Char) : Option Nat :=
  match hay with
  | [] => if needle.isEmpty then some 0 else none
  | _ :: rest =>
      if needle.isPrefixOf hay then some 0
      else (substrIndex rest needle).map (· + 1)

/-- `repoPathFromGitInternal`: map a canonical path inside a `.git`
directory to its repository root (`/` for the top-level `.git`); the
first occurrence of `/.git` must be followed by `/` or end the
string, otherwise `null`. -/
def repoPathFromGitInternal (rel : String) : Option String :=
  if rel = "" then none
  else if rel = ".git" ∨ strStarts rel ".git/" then some "/"
  else
    match substrIndex rel.data "/.git".data with
    | none => none
    | some i =>
        if (match rel.data.drop (i + 5) with
            | [] => false
            | c :: _ => c ≠ '/') then none
        else if (⟨rel.data.take i⟩ : String) = "" then some "/"
        else some ⟨rel.data.take i⟩

/-- `indexPath` on the canonical path of the event (`normalizeRelative`
of the absolute event path), with the stat outcome as input: ignore
check, stat (marking unsupported errors), upsert of `entryFromStats`.
The second component is the directory whose git metadata is then
refreshed: the path itself for directories
(`updateGitMetadataForDirectory`), and for files the owning repository
root per `repoPathFromGitInternal` (`refreshGitMetadataForPath`, after
`deleteGitMetadata` of the file path); git metadata lives in its own
table and does not alter this store. -/
def indexPathWithStat (rootName : String) (now : Nat) (st : SysState)
    (rel : String) (stat : StatRes) : SysState × Option String :=
  if shouldIgnorePath st.ignored rel then (st, none)
  else
    match stat with
    | .err code =>
        if code ∈ UNSUPPORTED_FS_CODES then
          ({ st with ignored := markIgnored st.ignored rel }, none)
        else (st, none)
    | .ok stats =>
        let stNew := SysState.mk
          (upsertEntry st.entries (entryFromStats rootName now rel stats))
          st.tags st.ignored
        if stats.isDir then (stNew, some rel)
        else (stNew, repoPathFromGitInternal rel)

def indexPath (rootName : String) (now : Nat) (st : SysState)
    (rel : String) (stat : StatRes) : SysState :=
  (indexPathWithStat rootName now st rel stat).1

/-- The store mutations reachable from the watcher handlers, the scan
and the tag API, as one event type (event paths are canonical). -/
inductive FsEvent where
  | scan (fs : FS)
  | add (rel : String) (stat : StatRes)
  | change (rel : String) (stat : StatRes)
  | addDir (rel : String) (stat : StatRes)
  | unlink (rel : String)
  | unlinkDir (rel : String)
  | tagAdd (path key value : Option String)
  | tagRemove (path key value : String)
deriving Repr, DecidableEq

def applyEvent (rootName : String) (now : Nat) (st : SysState) : FsEvent → SysState
  | .scan fs => scanInitialTree rootName now fs st
  | .add rel stat => indexPath rootName now st rel stat
  | .change rel stat => indexPath rootName now st rel stat
  | .addDir rel stat => indexPath rootName now st rel stat
  | .unlink rel => if shouldIgnorePath st.ignored rel then st else removePath st rel
  | .unlinkDir rel =>
      if shouldIgnorePath st.ignored rel then st else deleteEntryBranch st rel
  | .tagAdd p k v => (addTagHandler st p k v).2
  | .tagRemove p k v =>
      SysState.mk st.entries
        (st.tags.filter (fun t => !(t.entry_path == p && t.key == k && t.value == v)))
        st.ignored

def runEvents (rootName : String) (now : Nat) (evs : List FsEvent) : SysState :=
  evs.foldl (applyEvent rootName now) emptyState

/-- The claimed invariant: every stored non-root entry's `parentPath`
is itself the path of some stored entry. -/
def ParentInv (st : SysState) : Prop :=
  ∀ e ∈ st.entries, e.path ≠ "/" →
    ∃ e2 ∈ st.entries, e.parent_path = some e2.path

instance (st : SysState) : Decidable (ParentInv st) := by
  unfold ParentInv
  infer_instance

/-- C3 counterexample: a single watcher `add` event for the top-level
file `a` on the empty store (the file exists and stats fine) stores an
entry with `parentPath = '/'` while no root entry exists, so the
claimed invariant fails on a reachable store state. -/
theorem parentInv_counterexample :
    ¬ ParentInv (runEvents "root" 7 [.add "a" (.ok ⟨false, 3, 5⟩)]) := by
  decide

theorem lookupEntry_isSome_iff {rows : List Entry} {q : String} :
    (lookupEntry rows q).isSome = true ↔ ∃ e ∈ rows, e.path = q := by
  induction rows with
  | nil => simp [lookupEntry]
  | cons r rest ih =>
    rw [lookupEntry]
    by_cases h : r.path = q
    · simp [h]
    · rw [if_neg h, ih]
      constructor
      · rintro ⟨e, he, hp⟩
        exact ⟨e, List.mem_cons_of_mem _ he, hp⟩
      · rintro ⟨e, he, hp⟩
        rcases List.mem_cons.mp he with he | he
        · exact absurd (he ▸ hp) h
        · exact ⟨e, he, hp⟩

theorem mem_upsertEntry {rows : List Entry} {x e : Entry}
    (h : e ∈ upsertEntry rows x) : e = x ∨ e ∈ rows := by
  induction rows with
  | nil => simpa [upsertEntry] using h
  | cons r rest ih =>
    rw [upsertEntry] at h
    split at h
    · rcases List.mem_cons.mp h with h | h
      · exact Or.inl h
      · exact Or.inr (List.mem_cons_of_mem _ h)
    · rcases List.mem_cons.mp h with h | h
      · exact Or.inr (h ▸ List.mem_cons_self _ _)
      · rcases ih h with h | h
        · exact Or.inl h
        · exact Or.inr (List.mem_cons_of_mem _ h)

theorem path_present_upsert {rows : List Entry} (x : Entry) {q : String}
    (h : ∃ e ∈ rows, e.path = q) : ∃ e ∈ upsertEntry rows x, e.path = q := by
  rw [← lookupEntry_isSome_iff] at h ⊢
  rw [lookup_upsertEntry]
  split
  · rfl
  · exact h

theorem upsert_self_present (rows : List Entry) (x : Entry) :
    ∃ e ∈ upsertEntry rows x, e.path = x.path := by
  rw [← lookupEntry_isSome_iff, lookup_upsertEntry, if_pos rfl]
  rfl

theorem afterLastSlash_no_slash {cs : List Char} (h : '/' ∉ cs) :
    afterLastSlash cs = cs := by
  cases cs with
  | nil => rfl
  | cons c cs' =>
    rw [afterLastSlash, if_neg]
    rintro (h1 | h1)
    · exact h (by simp [h1])
    · exact h (List.mem_cons_of_mem _ h1)

theorem slash_decomp {cs : List Char} (h : '/' ∈ cs) :
    cs = beforeLastSlash cs ++ '/' :: afterLastSlash cs ∧ '/' ∉ afterLastSlash cs := by
  induction cs with
  | nil => simp at h
  | cons c cs' ih =>
    by_cases hm : '/' ∈ cs'
    · obtain ⟨h1, h2⟩ := ih hm
      rw [beforeLastSlash, if_pos hm, afterLastSlash, if_pos (Or.inr hm)]
      exact ⟨by rw [List.cons_append, ← h1], h2⟩
    · have hc : c = '/' := by
        rcases List.mem_cons.mp h with h1 | h1
        · exact h1.symm
        · exact absurd h1 hm
      subst hc
      rw [beforeLastSlash, if_neg hm, afterLastSlash, if_pos (Or.inl rfl),
        afterLastSlash_no_slash hm]
      exact ⟨rfl, hm⟩

theorem parentOf_some_decomp {p q : String} (h : parentOf p = some q) (hq : q ≠ "/") :
    ∃ rest, p.data = q.data ++ '/' :: rest ∧ '/' ∉ rest := by
  rw [parentOf] at h
  split at h
  · exact absurd h (by simp)
  · split at h
    · rename_i hmem
      split at h
      · exact absurd (Option.some_inj.mp h).symm hq
      · obtain ⟨h1, h2⟩ := slash_decomp hmem
        refine ⟨afterLastSlash p.data, ?_, h2⟩
        rw [← Option.some_inj.mp h]
        exact h1
    · exact absurd (Option.some_inj.mp h).symm hq

theorem anySuffix_iff {f : List Char → Bool} {t : List Char} :
    anySuffix f t = true ↔ ∃ t1 t2, t = t1 ++ t2 ∧ f t2 = true := by
  induction t with
  | nil =>
    rw [anySuffix]
    constructor
    · intro h; exact ⟨[], [], rfl, h⟩
    · rintro ⟨t1, t2, h1, h2⟩
      obtain ⟨e1, e2⟩ := List.append_eq_nil.mp h1.symm
      rw [← e2]; exact h2
  | cons c ts ih =>
    rw [anySuffix, Bool.or_eq_true_iff, ih]
    constructor
    · rintro (h | ⟨t1, t2, h1, h2⟩)
      · exact ⟨[], c :: ts, rfl, h⟩
      · exact ⟨c :: t1, t2, by rw [List.cons_append, ← h1], h2⟩
    · rintro ⟨t1, t2, h1, h2⟩
      cases t1 with
      | nil =>
        rw [List.nil_append] at h1
        rw [← h1] at h2
        exact Or.inl h2
      | cons x t1' =>
        rw [List.cons_append, List.cons.injEq] at h1
        exact Or.inr ⟨t1', t2, h1.2, h2⟩

theorem like_nil_all_pct : ∀ ps : List Char, likeMatchL ps [] = true → ∀ c ∈ ps, c = '%' := by
  intro ps
  induction ps with
  | nil => intro _ c hc; simp at hc
  | cons p pr ih =>
    intro h c hc
    by_cases hp : p = '%'
    · subst hp
      rw [likeMatchL_pct, anySuffix] at h
      rcases List.mem_cons.mp hc with h1 | h1
      · exact h1
      · exact ih h c h1
    · rw [likeMatchL_lit_nil pr hp] at h
      exact absurd h (by simp)

theorem likeMatchL_extend : ∀ (ps t u : List Char),
    likeMatchL (ps ++ ['%']) t = true → likeMatchL (ps ++ ['%']) (t ++ u) = true := by
  intro ps
  induction ps with
  | nil => intro t u _; exact like_pct_any (t ++ u)
  | cons p pr ih =>
    intro t u h
    rw [List.cons_append] at h ⊢
    by_cases hp : p = '%'
    · subst hp
      rw [likeMatchL_pct] at h ⊢
      obtain ⟨t1, t2, h1, h2⟩ := anySuffix_iff.mp h
      exact anySuffix_iff.mpr ⟨t1, t2 ++ u, by rw [h1, List.append_assoc], ih t2 u h2⟩
    · cases t with
      | nil => rw [likeMatchL_lit_nil _ hp] at h; exact absurd h (by simp)
      | cons c ts =>
        rw [likeMatchL_lit_cons _ _ _ hp] at h
        rw [List.cons_append, likeMatchL_lit_cons _ _ _ hp]
        split at h
        · rw [if_pos (by assumption)]
          exact ih ts u h
        · rw [if_neg (by assumption)]
          rw [Bool.and_eq_true] at h
          rw [h.1, ih ts u h.2]
          rfl

/-- A pattern `p ++ "/%"` can only match the single-character text
`/` when `p` consists entirely of `%` wildcards. -/
theorem like_single_slash : ∀ ps : List Char,
    likeMatchL (ps ++ ['/', '%']) ['/'] = true → ∀ c ∈ ps, c = '%' := by
  intro ps
  induction ps with
  | nil => intro _ c hc; simp at hc
  | cons p pr ih =>
    intro h c hc
    rw [List.cons_append] at h
    by_cases hp : p = '%'
    · subst hp
      rw [likeMatchL_pct] at h
      obtain ⟨t1, t2, h1, h2⟩ := anySuffix_iff.mp h
      rcases List.mem_cons.mp hc with h3 | h3
      · exact h3
      · cases t1 with
        | nil =>
          rw [List.nil_append] at h1
          rw [← h1] at h2
          exact ih h2 c h3
        | cons x t1' =>
          have ht2 : t2 = [] := by
            rw [List.cons_append] at h1
            have h4 := (List.cons.injEq '/' [] x (t1' ++ t2)).mp h1
            exact (List.append_eq_nil.mp h4.2.symm).2
          rw [ht2] at h2
          have := like_nil_all_pct _ h2 '/'
            (List.mem_append_right _ (List.mem_cons_self _ _))
          exact absurd this (by decide)
    · exfalso
      by_cases hu : p = '_'
      · subst hu
        rw [likeMatchL_lit_cons _ _ _ hp, if_pos rfl] at h
        have := like_nil_all_pct _ h '/'
          (List.mem_append_right _ (List.mem_cons_self _ _))
        exact absurd this (by decide)
      · rw [likeMatchL_lit_cons _ _ _ hp, if_neg hu, Bool.and_eq_true] at h
        have := like_nil_all_pct _ h.2 '/'
          (List.mem_append_right _ (List.mem_cons_self _ _))
        exact absurd this (by decide)

/-- The branch pattern of a path containing at least one non-`%`
character does not match the root path `/`. -/
theorem likeMatch_root_false {rel : String} (h : ∃ c ∈ rel.data, c ≠ '%') :
    likeMatch (rel ++ "/%") "/" = false := by
  obtain ⟨c, hc, hne⟩ := h
  by_contra hcon
  rw [Bool.not_eq_false] at hcon
  rw [likeMatch] at hcon
  have hd : (rel ++ "/%").data = rel.data ++ ['/', '%'] := by
    rw [String.data_append]
  rw [hd] at hcon
  exact hne (like_single_slash rel.data hcon c hc)

/-- Stored entries built by `entryFromStats` satisfy
`parent_path = parentOf path`; combined with the parent-present
invariant this is what the delete operations preserve. -/
def GoodState (st : SysState) : Prop :=
  (∀ e ∈ st.entries, e.parent_path = parentOf e.path) ∧ ParentInv st

theorem GoodState_of_entries_eq {st st' : SysState} (h : st'.entries = st.entries)
    (hg : GoodState st) : GoodState st' := by
  constructor
  · rw [h]; exact hg.1
  · unfold ParentInv
    rw [h]
    exact hg.2

theorem GoodState_upsert {st : SysState} (hg : GoodState st) (rootName : String)
    (now : Nat) (rel : String) (stats : Stats)
    (hparent : rel = "/" ∨ ∃ e2 ∈ st.entries, parentOf rel = some e2.path) :
    GoodState (SysState.mk
      (upsertEntry st.entries (entryFromStats rootName now rel stats))
      st.tags st.ignored) := by
  constructor
  · intro e he
    rcases mem_upsertEntry he with h | h
    · subst h; rfl
    · exact hg.1 e h
  · intro e he hroot
    rcases mem_upsertEntry he with h | h
    · subst h
      rcases hparent with h2 | ⟨e2, he2, hp2⟩
      · exact absurd h2 hroot
      · obtain ⟨e2', he2', hpath⟩ := path_present_upsert
          (entryFromStats rootName now rel stats) ⟨e2, he2, rfl⟩
        exact ⟨e2', he2', by
          show parentOf rel = some e2'.path
          rw [hp2, hpath]⟩
    · obtain ⟨e2, he2, hp⟩ := hg.2 e h hroot
      obtain ⟨e2', he2', hpath⟩ := path_present_upsert
        (entryFromStats rootName now rel stats) ⟨e2, he2, rfl⟩
      exact ⟨e2', he2', by rw [hp, hpath]⟩

theorem GoodState_indexPath (rootName : String) (now : Nat) (st : SysState)
    (rel : String) (stat : StatRes) (hg : GoodState st)
    (hparent : rel = "/" ∨ ∃ e2 ∈ st.entries, parentOf rel = some e2.path) :
    GoodState (indexPath rootName now st rel stat) := by
  rw [indexPath, indexPathWithStat.eq_def]
  split
  · exact hg
  · cases stat with
    | err code =>
      dsimp only
      by_cases hcode : code ∈ UNSUPPORTED_FS_CODES
      · rw [if_pos hcode]
        exact GoodState_of_entries_eq rfl hg
      · rw [if_neg hcode]
        exact hg
    | ok stats =>
      obtain ⟨isDir, size, mtimeMs⟩ := stats
      cases isDir
      · exact GoodState_upsert hg rootName now rel ⟨false, size, mtimeMs⟩ hparent
      · exact GoodState_upsert hg rootName now rel ⟨true, size, mtimeMs⟩ hparent

theorem GoodState_removePath {st : SysState} (hg : GoodState st) {rel : String}
    (hroot : rel ≠ "/") (hpct : ∃ c ∈ rel.data, c ≠ '%') :
    GoodState (removePath st rel) := by
  have hmem : ∀ e : Entry, e ∈ (removePath st rel).entries ↔
      e ∈ st.entries ∧ (e.path == rel) = false ∧
        likeMatch (rel ++ "/%") e.path = false := by
    intro e
    rw [removePath]
    simp only [List.mem_filter, Bool.not_eq_true']
    tauto
  constructor
  · intro e he
    exact hg.1 e ((hmem e).mp he).1
  · intro e he hne
    obtain ⟨hin, hne1, hne2⟩ := (hmem e).mp he
    obtain ⟨e2, he2, hp⟩ := hg.2 e hin hne
    have hpq : parentOf e.path = some e2.path := by rw [← hg.1 e hin, hp]
    refine ⟨e2, (hmem e2).mpr ⟨he2, ?_, ?_⟩, hp⟩
    · by_cases hq : e2.path = "/"
      · rw [hq]
        exact beq_eq_false_iff_ne.mpr (fun hc => hroot hc.symm)
      · obtain ⟨rest, hdec, _⟩ := parentOf_some_decomp hpq hq
        rw [beq_eq_false_iff_ne]
        intro hc
        have hpref : (rel ++ "/").data.isPrefixOf e.path.data = true := by
          rw [List.isPrefixOf_iff_prefix]
          refine ⟨rest, ?_⟩
          rw [String.data_append, hdec, hc]
          simp
        exact absurd (likeMatch_descendant rel e.path hpref) (by simp [hne2])
    · by_cases hq : e2.path = "/"
      · rw [hq]
        exact likeMatch_root_false hpct
      · obtain ⟨rest, hdec, _⟩ := parentOf_some_decomp hpq hq
        by_contra hc
        rw [Bool.not_eq_false] at hc
        rw [likeMatch] at hc
        have hext := likeMatchL_extend ((rel ++ "/").data) e2.path.data ('/' :: rest) (by
          have hd : (rel ++ "/%").data = (rel ++ "/").data ++ ['%'] := by
            rw [String.data_append, String.data_append,
              show ("/%" : String).data = ['/', '%'] from rfl,
              show ("/" : String).data = ['/'] from rfl]
            simp
          rw [hd] at hc
          exact hc)
        have : likeMatch (rel ++ "/%") e.path = true := by
          rw [likeMatch]
          have hd : (rel ++ "/%").data = (rel ++ "/").data ++ ['%'] := by
            rw [String.data_append, String.data_append,
              show ("/%" : String).data = ['/', '%'] from rfl,
              show ("/" : String).data = ['/'] from rfl]
            simp
          rw [hd, hdec]
          exact hext
        exact absurd this (by simp [hne2])

theorem GoodState_deleteEntryBranch {st : SysState} (hg : GoodState st) {rel : String}
    (hpct : ∃ c ∈ rel.data, c ≠ '%') :
    GoodState (deleteEntryBranch st rel) := by
  rw [deleteEntryBranch]
  split
  · exact hg
  · rename_i hguard
    exact GoodState_removePath hg (fun hc => hguard (Or.inl hc)) hpct

theorem addTagHandler_entries (st : SysState) (p k v : Option String) :
    (addTagHandler st p k v).2.entries = st.entries := by
  cases p with
  | none => cases k <;> cases v <;> rfl
  | some p' =>
    cases k with
    | none => cases v <;> rfl
    | some k' =>
      cases v with
      | none => rfl
      | some v' =>
        rw [addTagHandler]
        split
        · rfl
        · split <;> rfl

mutual
theorem walk_good (rootName : String) (now : Nat) (fsn : FS) (segs : List String)
    (hsegs : ∀ s ∈ segs, segOk s = true) (hwf : wfFS fsn = true)
    (seen : List String) (st : SysState) (hg : GoodState st)
    (hparent : renderPath segs = "/" ∨
      ∃ e2 ∈ st.entries, parentOf (renderPath segs) = some e2.path) :
    GoodState (walk rootName now fsn (renderPath segs) seen st).2 := by
  cases fsn with
  | file sz mt =>
    rw [walk]
    split
    · exact hg
    · split
      · exact hg
      · exact GoodState_upsert hg rootName now (renderPath segs) ⟨false, sz, mt⟩ hparent
  | statErr code =>
    rw [walk]
    split
    · exact hg
    · split
      · exact GoodState_of_entries_eq rfl hg
      · exact hg
  | dirErr mt =>
    rw [walk]
    split
    · exact hg
    · split
      · exact hg
      · exact GoodState_upsert hg rootName now (renderPath segs) ⟨true, 0, mt⟩ hparent
  | dir mt children =>
    rw [wfFS] at hwf
    rw [walk]
    split
    · exact hg
    · split
      · exact hg
      · exact walkChildren_good rootName now children segs hsegs hwf _ _
          (GoodState_upsert hg rootName now (renderPath segs) ⟨true, 0, mt⟩ hparent)
          (upsert_self_present st.entries
            (entryFromStats rootName now (renderPath segs) ⟨true, 0, mt⟩))
theorem walkChildren_good (rootName : String) (now : Nat) (cs : FSList)
    (segs : List String) (hsegs : ∀ s ∈ segs, segOk s = true)
    (hwf : wfFSList cs = true) (seen : List String) (st : SysState)
    (hg : GoodState st)
    (hpres : ∃ e2 ∈ st.entries, e2.path = renderPath segs) :
    GoodState (walkChildren rootName now cs (renderPath segs) seen st).2 := by
  cases cs with
  | nil => exact hg
  | cons n c rest =>
    obtain ⟨hv, hnm, hwc, hwr⟩ := wfFSList_cons hwf
    have hn := validName_segOk hv
    have hsegs' : ∀ s ∈ segs ++ [n], segOk s = true := by
      intro s hs
      rcases List.mem_append.mp hs with h | h
      · exact hsegs s h
      · simp at h; rw [h]; exact hn
    rw [walkChildren]
    have hjr : joinRel (renderPath segs) n = renderPath (segs ++ [n]) :=
      joinRel_renderPath segs n hsegs
    have hg1 : GoodState (walk rootName now c (joinRel (renderPath segs) n) seen st).2 := by
      rw [hjr]
      apply walk_good rootName now c (segs ++ [n]) hsegs' hwc seen st hg
      refine Or.inr ?_
      obtain ⟨e2, he2, hp⟩ := hpres
      refine ⟨e2, he2, ?_⟩
      rw [← hjr, parentOf_joinRel segs n hsegs hn, hp]
    apply walkChildren_good rootName now rest segs hsegs hwr _ _ hg1
    have hw := walk_spec rootName now c (joinRel (renderPath segs) n) seen st
    rw [← lookupEntry_isSome_iff]
    apply hw.ent_mono
    rw [lookupEntry_isSome_iff]
    exact hpres
end

theorem GoodState_scan (rootName : String) (now : Nat) (fs : FS) (st : SysState)
    (hwf : wfFS fs = true) (hg : GoodState st) :
    GoodState (scanInitialTree rootName now fs st) := by
  have h := walk_good rootName now fs [] (by simp) hwf [] st hg (Or.inl rfl)
  rw [show renderPath ([] : List String) = "/" from rfl] at h
  exact h

/-- C3 (amended): the parent-of-every-entry invariant does not hold
for arbitrary watcher event sequences (see the counterexample: a lone
`add` event violates it); what the code guarantees is that the
invariant — together with field-consistency of `parentPath` — holds
in the empty store and is preserved by the scan, by `unlink` /
`unlinkDir` deletions for non-root paths containing at least one
non-`%` character, and by tag operations, while `add`/`change`/
`addDir` (`indexPath`) preserve it exactly when the indexed path is
the root or its parent is already stored. -/
theorem parent_invariant_amended :
    GoodState emptyState ∧
    (∀ rootName now fs st, wfFS fs = true → GoodState st →
      GoodState (scanInitialTree rootName now fs st)) ∧
    (∀ rootName now st rel stat, GoodState st →
      (rel = "/" ∨ ∃ e2 ∈ st.entries, parentOf rel = some e2.path) →
      GoodState (indexPath rootName now st rel stat)) ∧
    (∀ st rel, GoodState st → rel ≠ "/" → (∃ c ∈ rel.data, c ≠ '%') →
      GoodState (removePath st rel)) ∧
    (∀ st rel, GoodState st → (∃ c ∈ rel.data, c ≠ '%') →
      GoodState (deleteEntryBranch st rel)) ∧
    (∀ st p k v, GoodState st → GoodState ((addTagHandler st p k v).2)) ∧
    (∀ rootName now st p k v, GoodState st →
      GoodState (applyEvent rootName now st (.tagRemove p k v))) := by
  refine ⟨⟨fun e he => absurd he (List.not_mem_nil e), fun e he => absurd he (List.not_mem_nil e)⟩,
    fun rootName now fs st hwf hg => GoodState_scan rootName now fs st hwf hg,
    fun rootName now st rel stat hg hp => GoodState_indexPath rootName now st rel stat hg hp,
    fun st rel hg h1 h2 => GoodState_removePath hg h1 h2,
    fun st rel hg h2 => GoodState_deleteEntryBranch hg h2,
    fun st p k v hg => GoodState_of_entries_eq (addTagHandler_entries st p k v) hg,
    fun rootName now st p k v hg => GoodState_of_entries_eq rfl hg⟩

theorem parent_invariant_amended_witness :
    GoodState (scanInitialTree "root" 99 exampleFS emptyState) ∧
    GoodState (indexPath "root" 99 emptyState "/" (.ok ⟨true, 0, 4⟩)) := by
  have h := parent_invariant_amended
  exact ⟨h.2.1 "root" 99 exampleFS emptyState (by decide) h.1,
    h.2.2.1 "root" 99 emptyState "/" (.ok ⟨true, 0, 4⟩) h.1 (Or.inl rfl)⟩

/-! ## Path normalizer and outside paths (C8)

Absolute paths are modelled as resolved segment lists (the output of
`path.resolve`: no empty, `.` or `..` segments); the monitored root
is `rootSegs`.  POSIX `path.relative(START_PATH, abs)` emits one `..`
segment per root segment remaining after the common prefix, then the
remaining target segments. -/

def commonLen : List String → List String → Nat
  | a :: as, b :: bs => if a = b then commonLen as bs + 1 else 0
  | _, _ => 0

def pathRelativeSegs (fromSegs toSegs : List String) : List String :=
  List.replicate (fromSegs.length - commonLen fromSegs toSegs) ".."
    ++ toSegs.drop (commonLen fromSegs toSegs)

/-- `normalizeRelative`: the `path.relative` output with `/`
separators, `/` when it is empty. -/
def normalizeRelative (rootSegs absSegs : List String) : String :=
  renderPath (pathRelativeSegs rootSegs absSegs)

/-- The canonical form of a path outside the root: what
`normalizeRelative` returns for it — a leading `..` segment. -/
def IsOutsideForm (p : String) : Prop :=
  ∃ t, (∀ s ∈ t, segOk s = true) ∧ p = renderPath (".." :: t)

theorem commonLen_le : ∀ a b : List String, commonLen a b ≤ a.length := by
  intro a
  induction a with
  | nil => intro b; cases b <;> simp [commonLen]
  | cons x as ih =>
    intro b
    cases b with
    | nil => simp [commonLen]
    | cons y bs =>
      rw [commonLen]
      split
      · simpa using ih bs
      · simp

theorem commonLen_eq_length_iff : ∀ a b : List String,
    (commonLen a b = a.length ↔ a <+: b) := by
  intro a
  induction a with
  | nil => intro b; cases b <;> simp [commonLen]
  | cons x as ih =>
    intro b
    cases b with
    | nil =>
      rw [commonLen.eq_def]
      simp
    | cons y bs =>
      rw [commonLen, List.cons_prefix_cons]
      split
      · rename_i hxy
        simp only [List.length_cons, Nat.add_right_cancel_iff, ih bs]
        tauto
      · rename_i hxy
        constructor
        · intro h; simp at h
        · rintro ⟨h, _⟩; exact absurd h hxy

theorem commonLen_append_self : ∀ (a e : List String), commonLen a (a ++ e) = a.length := by
  intro a e
  induction a with
  | nil => cases e <;> simp [commonLen]
  | cons x as ih =>
    rw [List.cons_append, commonLen, if_pos rfl, ih]
    rfl

theorem strStarts_render_dotdot (t : List String) :
    strStarts (renderPath (".." :: t)) ".." = true := by
  rw [strStarts, renderPath, renderData]
  split
  · exact List.isPrefixOf_iff_prefix.mpr (List.prefix_refl _)
  · exact List.isPrefixOf_iff_prefix.mpr ⟨'/' :: renderData t, rfl⟩

/-- C8: an absolute path outside the configured root normalizes to a
value beginning with `..` (a leading `..` segment); the initial scan
never stores an entry under such a path (its stored paths are renders
of real-name segment lists); an in-tree absolute path normalizes to
the render of its relative segments, which is never an outside value;
and a watcher `indexPath` event touches no path other than the
canonical path of the event, so watcher events on in-tree paths never
store an outside value either. -/
theorem normalizeRelative_outside_never_stored :
    (∀ rootSegs absSegs : List String, (∀ s ∈ absSegs, segOk s = true) →
      ¬ rootSegs <+: absSegs →
      strStarts (normalizeRelative rootSegs absSegs) ".." = true ∧
        IsOutsideForm (normalizeRelative rootSegs absSegs)) ∧
    (∀ rootName now fs st p, wfFS fs = true →
      lookupEntry (scanInitialTree rootName now fs st).entries p
          ≠ lookupEntry st.entries p →
      ¬ IsOutsideForm p) ∧
    (∀ rootSegs extra : List String, (∀ s ∈ extra, validName s = true) →
      normalizeRelative rootSegs (rootSegs ++ extra) = renderPath extra ∧
        ¬ IsOutsideForm (renderPath extra)) ∧
    (∀ rootName now st rel stat p,
      lookupEntry (indexPath rootName now st rel stat).entries p
          ≠ lookupEntry st.entries p →
      p = rel) := by
  have hnotout : ∀ t : List String, (∀ s ∈ t, validName s = true) →
      ¬ IsOutsideForm (renderPath t) := by
    rintro t ht ⟨u, hu, heq⟩
    have h1 : ∀ s ∈ t, segOk s = true := fun s hs => validName_segOk (ht s hs)
    have h2 : ∀ s ∈ (".." :: u), segOk s = true := by
      intro s hs
      rcases List.mem_cons.mp hs with h | h
      · rw [h]; decide
      · exact hu s h
    have := renderPath_inj h1 h2 heq
    have hdd : (".." : String) ∈ t := by rw [this]; exact List.mem_cons_self _ _
    have := ht ".." hdd
    exact absurd this (by decide)
  refine ⟨?_, ?_, ?_, ?_⟩
  · intro rootSegs absSegs habs hnp
    have hlt : commonLen rootSegs absSegs < rootSegs.length := by
      rcases Nat.lt_or_ge (commonLen rootSegs absSegs) rootSegs.length with h | h
      · exact h
      · have := Nat.le_antisymm (commonLen_le rootSegs absSegs) h
        exact absurd ((commonLen_eq_length_iff rootSegs absSegs).mp this) hnp
    have hk : rootSegs.length - commonLen rootSegs absSegs
        = (rootSegs.length - commonLen rootSegs absSegs - 1) + 1 := by omega
    have hshape : pathRelativeSegs rootSegs absSegs
        = ".." :: (List.replicate (rootSegs.length - commonLen rootSegs absSegs - 1) ".."
            ++ absSegs.drop (commonLen rootSegs absSegs)) := by
      rw [pathRelativeSegs, hk, List.replicate_succ, List.cons_append]
      simp
    have hform : IsOutsideForm (normalizeRelative rootSegs absSegs) := by
      refine ⟨List.replicate (rootSegs.length - commonLen rootSegs absSegs - 1) ".."
        ++ absSegs.drop (commonLen rootSegs absSegs), ?_, ?_⟩
      · intro s hs
        rcases List.mem_append.mp hs with h | h
        · rw [List.eq_of_mem_replicate h]; decide
        · exact habs s (List.drop_subset _ _ h)
      · rw [normalizeRelative, hshape]
    refine ⟨?_, hform⟩
    rw [normalizeRelative, hshape]
    exact strStarts_render_dotdot _
  · intro rootName now fs st p hwf hchanged
    have hw := walk_spec rootName now fs "/" [] st
    have hmem : p ∈ nodeRels fs "/" := by
      by_contra hnm
      exact hchanged (hw.ent_frame p hnm)
    rw [show ("/" : String) = renderPath [] from rfl] at hmem
    obtain ⟨t, ht, hrr⟩ := nodeRels_shape fs [] hwf (by simp) p hmem
    rw [List.nil_append] at hrr
    rw [hrr]
    exact hnotout t ht
  · intro rootSegs extra hextra
    have heq : normalizeRelative rootSegs (rootSegs ++ extra) = renderPath extra := by
      rw [normalizeRelative, pathRelativeSegs, commonLen_append_self,
        Nat.sub_self, List.replicate_zero, List.nil_append, List.drop_left]
    exact ⟨heq, hnotout extra hextra⟩
  · intro rootName now st rel stat p hchanged
    rw [indexPath, indexPathWithStat.eq_def] at hchanged
    by_cases hig : shouldIgnorePath st.ignored rel = true
    · rw [if_pos hig] at hchanged
      exact absurd rfl hchanged
    · rw [if_neg hig] at hchanged
      cases stat with
      | err code =>
        dsimp only at hchanged
        split at hchanged
        · exact absurd rfl hchanged
        · exact absurd rfl hchanged
      | ok stats =>
        dsimp only at hchanged
        by_contra hne
        apply hchanged
        have : lookupEntry (upsertEntry st.entries (entryFromStats rootName now rel stats)) p
            = lookupEntry st.entries p := by
          rw [lookup_upsertEntry, if_neg (fun hc => hne ((show (entryFromStats rootName now rel stats).path = rel from rfl) ▸ hc).symm)]
        split <;> exact this

theorem normalizeRelative_outside_witness :
    (¬ (["home", "work"] : List String) <+: ["etc", "passwd"]) ∧
      strStarts (normalizeRelative ["home", "work"] ["etc", "passwd"]) ".." = true ∧
      normalizeRelative ["home", "work"] ["home", "work", "src"] = renderPath ["src"] := by
  refine ⟨by decide, ?_, ?_⟩
  · exact (normalizeRelative_outside_never_stored.1 ["home", "work"] ["etc", "passwd"]
      (by decide) (by decide)).1
  · exact (normalizeRelative_outside_never_stored.2.2.1 ["home", "work"] ["src"]
      (by decide)).1

/-! ## Git metadata collection (C6) and `.git`-internal events (C7)

`gatherGitMetadata` is modelled as a decision over the outcomes of its
external calls (`fsp.stat` of the directory and of its `.git` entry,
`git rev-parse --show-toplevel`, and the later metadata commands);
the modelled output is its effect on the `git_metadata` row of the
candidate path: kept, deleted, or upserted. -/

inductive DirStatOutcome where
  | ok (isDir : Bool)
  | enoent
  | otherErr
deriving Repr, DecidableEq

inductive GitStatOutcome where
  | ok
  | enoentOrNotdir
  | unsupported
  | otherErr
deriving Repr, DecidableEq

inductive RevParseOutcome where
  | ok (repoRootAbs : List String)
  | unavailable
  | notRepo
  | otherErr
deriving Repr, DecidableEq

structure GitEnv where
  dirStat : DirStatOutcome
  gitStat : GitStatOutcome
  revParse : RevParseOutcome
  laterUnavailable : Bool
deriving Repr, DecidableEq

inductive GMAction where
  | unchanged
  | delete
  | store
deriving Repr, DecidableEq

/-- `gatherGitMetadata(absolutePath, relativePath)` as its effect on
the `git_metadata` row of `relativePath`.  Thrown errors
(`GIT_UNAVAILABLE`, unexpected stat errors) are caught by
`updateGitMetadataForDirectory` and change nothing. -/
def gatherGitMetadata (rootSegs : List String) (relativePath : String)
    (env : GitEnv) : GMAction :=
  if relativePath = "" then .unchanged
  else if relativePath ≠ "/" ∧ (⟨afterLastSlash relativePath.data⟩ : String) = ".git" then
    .unchanged
  else
    match env.dirStat with
    | .enoent => .delete
    | .otherErr => .unchanged
    | .ok isDir =>
        if !isDir then .delete
        else
          match env.gitStat with
          | .enoentOrNotdir => .delete
          | .unsupported => .unchanged
          | .otherErr => .unchanged
          | .ok =>
              match env.revParse with
              | .unavailable => .unchanged
              | .notRepo => .delete
              | .otherErr => .unchanged
              | .ok repoRootAbs =>
                  if strStarts (normalizeRelative rootSegs repoRootAbs) ".." then .delete
                  else if normalizeRelative rootSegs repoRootAbs ≠ relativePath then .delete
                  else if env.laterUnavailable then .unchanged
                  else .store

/-- C6: metadata is stored for a directory only when the repository
root reported by `git rev-parse --show-toplevel` normalizes to exactly
the directory's canonical path; when the resolution succeeds but the
root differs (a sub-directory of some repository) or lies outside the
monitored root, the stored metadata for the directory is deleted and
nothing is stored. -/
theorem gatherGitMetadata_root_only (rootSegs : List String) (relativePath : String)
    (env : GitEnv) :
    (gatherGitMetadata rootSegs relativePath env = .store →
      ∃ repoRootAbs, env.revParse = .ok repoRootAbs ∧
        normalizeRelative rootSegs repoRootAbs = relativePath) ∧
    (∀ repoRootAbs, env.revParse = .ok repoRootAbs →
      relativePath ≠ "" →
      ¬(relativePath ≠ "/" ∧ (⟨afterLastSlash relativePath.data⟩ : String) = ".git") →
      env.dirStat = .ok true → env.gitStat = .ok →
      normalizeRelative rootSegs repoRootAbs ≠ relativePath →
      gatherGitMetadata rootSegs relativePath env = .delete) := by
  constructor
  · intro hstore
    rw [gatherGitMetadata] at hstore
    split at hstore
    · exact absurd hstore (by simp)
    · split at hstore
      · exact absurd hstore (by simp)
      · cases henv : env.dirStat with
        | enoent => rw [henv] at hstore; exact absurd hstore (by simp)
        | otherErr => rw [henv] at hstore; exact absurd hstore (by simp)
        | ok isDir =>
          rw [henv] at hstore
          cases isDir with
          | false => exact absurd hstore (by simp)
          | true =>
            dsimp only at hstore
            cases hgit : env.gitStat with
            | enoentOrNotdir => rw [hgit] at hstore; exact absurd hstore (by simp)
            | unsupported => rw [hgit] at hstore; exact absurd hstore (by simp)
            | otherErr => rw [hgit] at hstore; exact absurd hstore (by simp)
            | ok =>
              rw [hgit] at hstore
              cases hrev : env.revParse with
              | unavailable => rw [hrev] at hstore; exact absurd hstore (by simp)
              | notRepo => rw [hrev] at hstore; exact absurd hstore (by simp)
              | otherErr => rw [hrev] at hstore; exact absurd hstore (by simp)
              | ok repoRootAbs =>
                rw [hrev] at hstore
                dsimp only at hstore
                refine ⟨repoRootAbs, rfl, ?_⟩
                by_contra hne2
                split at hstore
                · exact absurd hstore (by simp)
                · split at hstore
                  · exact absurd hstore (by simp)
                  · simp_all
  · intro repoRootAbs hrev hne hgitname hdir hgit hdiff
    rw [gatherGitMetadata, if_neg hne, if_neg hgitname, hdir]
    dsimp only
    rw [hgit, hrev]
    dsimp only
    split
    · rfl
    · split
      · rfl
      · simp_all

theorem gatherGitMetadata_root_only_witness :
    gatherGitMetadata ["r"] "proj/sub" (GitEnv.mk (.ok true) .ok (.ok ["r", "proj"]) false)
      = .delete := by
  refine (gatherGitMetadata_root_only ["r"] "proj/sub"
    (GitEnv.mk (.ok true) .ok (.ok ["r", "proj"]) false)).2 ["r", "proj"] rfl
    (by decide) (by decide) rfl rfl (by decide)

/-! C7: handling of watcher add/change events on files under `.git`. -/

/-- C7 counterexample: a change event on `.git/HEAD` (a file that
stats fine) upserts `.git/HEAD` itself into the entries store, so the
claim that such a file "is not stored as an entry in the index" is
false — `indexPath` has no `.git` exclusion. -/
theorem git_internal_file_is_stored :
    ¬ (lookupEntry (indexPath "root" 5 emptyState ".git/HEAD"
        (.ok ⟨false, 3, 4⟩)).entries ".git/HEAD" = none) := by
  decide

/-- C7 (amended): a watcher add/change event on a non-ignored file
path translates into a git-metadata refresh of
`repoPathFromGitInternal` of the path — for `.git`-internal paths the
owning repository root (`/` for the top-level `.git`) — but the file
itself is additionally upserted as an ordinary entry. -/
theorem git_internal_refresh_amended (rootName : String) (now : Nat) (st : SysState)
    (rel : String) (sz mt : Nat)
    (hig : shouldIgnorePath st.ignored rel = false) :
    (indexPathWithStat rootName now st rel (.ok ⟨false, sz, mt⟩)).2
        = repoPathFromGitInternal rel ∧
    lookupEntry (indexPathWithStat rootName now st rel (.ok ⟨false, sz, mt⟩)).1.entries rel
        = some (entryFromStats rootName now rel ⟨false, sz, mt⟩) := by
  rw [indexPathWithStat.eq_def, if_neg (by rw [hig]; simp)]
  dsimp only
  rw [if_neg (show ¬(false = true) by simp)]
  constructor
  · rfl
  · rw [lookup_upsertEntry,
      if_pos (show (entryFromStats rootName now rel ⟨false, sz, mt⟩).path = rel from rfl)]

theorem git_internal_refresh_amended_witness :
    (indexPathWithStat "root" 5 emptyState ".git/HEAD" (.ok ⟨false, 3, 4⟩)).2 = some "/" ∧
    (indexPathWithStat "root" 5 emptyState "proj/.git/config" (.ok ⟨false, 3, 4⟩)).2
        = some "proj" := by
  have h1 := git_internal_refresh_amended "root" 5 emptyState ".git/HEAD" 3 4 (by decide)
  have h2 := git_internal_refresh_amended "root" 5 emptyState "proj/.git/config" 3 4
    (by decide)
  exact ⟨h1.1.trans (by decide), h2.1.trans (by decide)⟩

end FileExplorer
